import Mathlib

set_option linter.unusedVariables false

/-!
Verification of the PrinceJS HTTP router (MatthewTheCoder1218/princejs) against its
specification.  The development shallowly embeds the router implementation found in
`src/src/prince.ts` (the main "Fixed router implementation"), the trie-draft variant in
the same file, and the root-level `prince.ts` variant (`findHandler`).  Route handlers
are modelled as opaque numeric identifiers; JS `Response` values as a record of status,
headers and body; the per-request mutable `params` object as an insertion-ordered
association list that is threaded through the matcher exactly as the shared JS object is
mutated.
-/

/-- Model of a JS `Response`: status code, headers in insertion order, body string. -/
structure Rsp where
  status : Nat
  headers : List (String × String)
  body : String
deriving DecidableEq, Repr

/-! ## Middleware chain (src/src/prince.ts, `Prince.executeHandler`, lines 419-434)

The source keeps a shared index `i` and defines

```
const next = async (): Promise<Response> => {
  while (i < this.middlewares.length) {
    const result = await this.middlewares[i++](req, next);
    if (result instanceof Response) return result;
  }
  const res = await handler(req);
  ...
};
return next();
```

A middleware receives `next` and may: return a `Response` without calling `next`
(short-circuit); call `next()` and return its result; call `next()` and then return
`undefined`; or return `undefined` without calling `next`.  Those four behaviours (the
ones the middleware claims quantify over) are the constructors of `Mw`.  Because the
index `i` is shared by every `next` frame, "continue the while loop at position `i`"
behaves exactly like a fresh `next()` call on the remaining suffix of the middleware
list, so the model recurses on that suffix; a frame's return value carries the suffix
that remains when it returns (the value of `i` at that moment).  `runNextF` is fuelled
to stay structurally recursive; `runChain` supplies fuel that is always sufficient
(each frame consumes one middleware or terminates at the handler, and at most two
frames are opened per middleware). -/

/-- Middleware behaviours: short-circuit with a response, call `next()` and return its
result, call `next()` then return `undefined`, or return `undefined` without `next()`. -/
inductive Mw where
  | shortCircuit (r : Rsp)
  | passThrough
  | nextThenUndefined
  | undefinedNoNext
deriving DecidableEq, Repr

/-- Instrumentation: `execs` records the label of each middleware whose body ran, in
execution order (the shared counter of claim C1 is `execs.length`); `handlerRuns`
counts route-handler invocations (the flag of claim C5 is `handlerRuns ≠ 0`). -/
structure ChainStats where
  execs : List Nat
  handlerRuns : Nat
deriving DecidableEq, Repr

/-- One `next()` frame of `executeHandler` (lines 420-431).  `hr` is the response the
route handler produces.  The result is the frame's returned response, the
instrumentation state, and the middleware suffix still unconsumed (the shared index
`i`) at the moment of return.  `none` only on fuel exhaustion, which `runChain` never
hits. -/
def runNextF (hr : Rsp) : Nat → List (Nat × Mw) → ChainStats → Option (Rsp × ChainStats × List (Nat × Mw))
  | 0, _, _ => none
  | _ + 1, [], st => some (hr, ⟨st.execs, st.handlerRuns + 1⟩, [])
  | fuel + 1, (lbl, b) :: t, st =>
    let st1 : ChainStats := ⟨st.execs ++ [lbl], st.handlerRuns⟩
    match b with
    | .shortCircuit r => some (r, st1, t)
    | .passThrough => runNextF hr fuel t st1
    | .undefinedNoNext => runNextF hr fuel t st1
    | .nextThenUndefined =>
      match runNextF hr fuel t st1 with
      | some (_, st2, rem) => runNextF hr fuel rem st2
      | none => none

/-- Fuel that always suffices for a chain of this length. -/
def chainFuel (l : List (Nat × Mw)) : Nat := 2 * l.length + 2

/-- The dispatcher's `return next()` (line 433): run the whole chain from the first
middleware with fresh instrumentation. -/
def runChain (hr : Rsp) (l : List (Nat × Mw)) : Option (Rsp × ChainStats × List (Nat × Mw)) :=
  runNextF hr (chainFuel l) l ⟨[], 0⟩

/-- Count of middleware that call `next()` and then return `undefined` (each such
middleware makes the while-loop resume and reach the handler once more). -/
def countNTU (l : List (Nat × Mw)) : Nat :=
  (l.filter (fun p => decide (p.2 = Mw.nextThenUndefined))).length

theorem runNextF_forward (hr : Rsp) :
    ∀ (l : List (Nat × Mw)) (fuel : Nat) (st : ChainStats),
      (∀ p ∈ l, p.2 = Mw.passThrough ∨ p.2 = Mw.nextThenUndefined) →
      2 * l.length + 2 ≤ fuel →
      runNextF hr fuel l st =
        some (hr, ⟨st.execs ++ l.map Prod.fst, st.handlerRuns + 1 + countNTU l⟩, []) := by
  intro l
  induction l with
  | nil =>
    intro fuel st _ hfuel
    match fuel, hfuel with
    | f + 1, _ => simp [runNextF, countNTU]
  | cons p t ih =>
    intro fuel st hb hfuel
    obtain ⟨lbl, b⟩ := p
    match fuel, hfuel with
    | f + 1, hfuel =>
      have hf : 2 * t.length + 2 ≤ f := by
        simp only [List.length_cons] at hfuel; omega
      have hbt : ∀ p ∈ t, p.2 = Mw.passThrough ∨ p.2 = Mw.nextThenUndefined :=
        fun p hp => hb p (List.mem_cons_of_mem _ hp)
      rcases hb (lbl, b) (List.mem_cons_self _ _) with h | h <;> simp only at h <;> subst h
      · rw [show runNextF hr (f + 1) ((lbl, Mw.passThrough) :: t) st
              = runNextF hr f t ⟨st.execs ++ [lbl], st.handlerRuns⟩ from rfl]
        rw [ih f _ hbt hf]
        simp [countNTU]
      · rw [show runNextF hr (f + 1) ((lbl, Mw.nextThenUndefined) :: t) st
              = (match runNextF hr f t ⟨st.execs ++ [lbl], st.handlerRuns⟩ with
                 | some (_, st2, rem) => runNextF hr f rem st2
                 | none => none) from rfl]
        rw [ih f _ hbt hf]
        have h1 : 1 ≤ f := by omega
        match f, h1 with
        | f' + 1, _ =>
          simp [runNextF, countNTU]
          omega

/-- C1: in a chain of N middleware that each run their body (increment the shared
counter) and then call `next()` — whether they return `next()`'s result or return
`undefined` afterwards — one request executes every middleware body exactly once, in
registration order: the recorded execution trace is exactly `[0, 1, ..., N-1]`, so the
counter ends at exactly N with no middleware run twice and none skipped. -/
theorem middleware_exactly_once (hr : Rsp) (mws : List Mw)
    (hb : ∀ b ∈ mws, b = Mw.passThrough ∨ b = Mw.nextThenUndefined) :
    ∃ out st rem,
      runChain hr ((List.range mws.length).zip mws) = some (out, st, rem) ∧
      st.execs = List.range mws.length ∧
      st.execs.length = mws.length := by
  have hlen : ((List.range mws.length).zip mws).length = mws.length := by
    simp
  have hb' : ∀ p ∈ (List.range mws.length).zip mws,
      p.2 = Mw.passThrough ∨ p.2 = Mw.nextThenUndefined := by
    intro p hp
    exact hb p.2 (List.of_mem_zip hp).2
  have := runNextF_forward hr ((List.range mws.length).zip mws)
    (chainFuel ((List.range mws.length).zip mws)) ⟨[], 0⟩ hb' (by simp [chainFuel])
  refine ⟨hr, ⟨List.range mws.length, 0 + 1 + countNTU ((List.range mws.length).zip mws)⟩, [], ?_, rfl, by simp⟩
  rw [runChain, this]
  rw [show ({ execs := [], handlerRuns := 0 } : ChainStats).execs ++
        List.map Prod.fst ((List.range mws.length).zip mws) = List.range mws.length by
      simpa using List.map_fst_zip (List.range mws.length) mws (by simp)]

/-- C1 witness: a concrete 3-middleware chain (the middle one returns `undefined`
after calling `next()`); the trace is `[0, 1, 2]`, counter 3. -/
theorem middleware_exactly_once_witness :
    ∃ out st rem,
      runChain ⟨200, [], "ok"⟩
          ((List.range ([Mw.passThrough, Mw.nextThenUndefined, Mw.passThrough] : List Mw).length).zip
            [Mw.passThrough, Mw.nextThenUndefined, Mw.passThrough]) = some (out, st, rem) ∧
      st.execs = List.range ([Mw.passThrough, Mw.nextThenUndefined, Mw.passThrough] : List Mw).length ∧
      st.execs.length = ([Mw.passThrough, Mw.nextThenUndefined, Mw.passThrough] : List Mw).length :=
  middleware_exactly_once ⟨200, [], "ok"⟩ _ (by decide)

/-- C5 counterexample chain: middleware 0 calls `next()` and then returns `undefined`,
middleware 1 returns a `Response` without calling `next()`, middleware 2 is registered
after the short-circuiting one and passes through to the handler. -/
def c5Chain : List (Nat × Mw) :=
  [(0, Mw.nextThenUndefined), (1, Mw.shortCircuit ⟨401, [], "denied"⟩), (2, Mw.passThrough)]

/-- C5 counterexample: the claim fails on the code.  In `c5Chain`, middleware 1 returns
a `Response` without calling `next()`, yet middleware 2 (registered after it) executes,
the route handler executes (its flag would be set), and the request's response is the
handler's response, not the short-circuiting middleware's: when middleware 0 gets
`undefined` back it returns `undefined`, so the outer while-loop resumes at the shared
index and runs the rest of the chain. -/
theorem c5_short_circuit_counterexample :
    runChain ⟨200, [], "handler"⟩ c5Chain =
      some (⟨200, [], "handler"⟩, ⟨[0, 1, 2], 1⟩, []) ∧
    (⟨200, [], "handler"⟩ : Rsp) ≠ ⟨401, [], "denied"⟩ := by
  constructor
  · rfl
  · decide

theorem runNextF_short_circuit (hr r : Rsp) (lbl : Nat) (post : List (Nat × Mw)) :
    ∀ (pre : List (Nat × Mw)) (fuel : Nat) (st : ChainStats),
      (∀ p ∈ pre, p.2 = Mw.passThrough ∨ p.2 = Mw.undefinedNoNext) →
      pre.length + 1 ≤ fuel →
      runNextF hr fuel (pre ++ (lbl, Mw.shortCircuit r) :: post) st =
        some (r, ⟨st.execs ++ pre.map Prod.fst ++ [lbl], st.handlerRuns⟩, post) := by
  intro pre
  induction pre with
  | nil =>
    intro fuel st _ hfuel
    match fuel, hfuel with
    | f + 1, _ => simp [runNextF]
  | cons p t ih =>
    intro fuel st hb hfuel
    obtain ⟨l0, b⟩ := p
    match fuel, hfuel with
    | f + 1, hfuel =>
      have hf : t.length + 1 ≤ f := by
        simp only [List.length_cons] at hfuel; omega
      have hbt : ∀ p ∈ t, p.2 = Mw.passThrough ∨ p.2 = Mw.undefinedNoNext :=
        fun p hp => hb p (List.mem_cons_of_mem _ hp)
      rcases hb (l0, b) (List.mem_cons_self _ _) with h | h <;> simp only at h <;> subst h
      · rw [show runNextF hr (f + 1) (((l0, Mw.passThrough) :: t) ++ (lbl, Mw.shortCircuit r) :: post) st
              = runNextF hr f (t ++ (lbl, Mw.shortCircuit r) :: post) ⟨st.execs ++ [l0], st.handlerRuns⟩ from rfl]
        rw [ih f _ hbt hf]
        simp
      · rw [show runNextF hr (f + 1) (((l0, Mw.undefinedNoNext) :: t) ++ (lbl, Mw.shortCircuit r) :: post) st
              = runNextF hr f (t ++ (lbl, Mw.shortCircuit r) :: post) ⟨st.execs ++ [l0], st.handlerRuns⟩ from rfl]
        rw [ih f _ hbt hf]
        simp

/-- C5 amended: a middleware that returns a `Response` without calling `next()`
short-circuits the chain — the handler and every middleware registered after it never
execute and its response becomes the request's response — provided every middleware
before it either returns the result of its `next()` call or returns `undefined`
without calling `next()` (if an earlier middleware calls `next()` and then returns
`undefined`, the loop resumes past the short-circuit, as the counterexample shows).
The execution trace is exactly the earlier middleware plus the short-circuiting one,
the handler never runs, the suffix `post` is still unconsumed, and the response is the
middleware's. -/
theorem c5_short_circuit_amended (hr r : Rsp) (lbl : Nat)
    (pre post : List (Nat × Mw))
    (hb : ∀ p ∈ pre, p.2 = Mw.passThrough ∨ p.2 = Mw.undefinedNoNext) :
    runChain hr (pre ++ (lbl, Mw.shortCircuit r) :: post) =
      some (r, ⟨pre.map Prod.fst ++ [lbl], 0⟩, post) := by
  have := runNextF_short_circuit hr r lbl post pre
    (chainFuel (pre ++ (lbl, Mw.shortCircuit r) :: post)) ⟨[], 0⟩ hb
    (by simp [chainFuel]; omega)
  rw [runChain, this]
  simp

/-- C5 amended witness: two pass-through middleware, then a short-circuit at label 2;
the handler never runs, middleware 3 never runs, and the response is the
short-circuiting middleware's 401. -/
theorem c5_short_circuit_amended_witness :
    runChain ⟨200, [], "handler"⟩
        ([(0, Mw.passThrough), (1, Mw.undefinedNoNext)] ++
          (2, Mw.shortCircuit ⟨401, [], "denied"⟩) :: [(3, Mw.passThrough)]) =
      some (⟨401, [], "denied"⟩,
        ⟨([(0, Mw.passThrough), (1, Mw.undefinedNoNext)] : List (Nat × Mw)).map Prod.fst ++ [2], 0⟩,
        [(3, Mw.passThrough)]) := by
  have h := c5_short_circuit_amended ⟨200, [], "handler"⟩ ⟨401, [], "denied"⟩ 2
    [(0, Mw.passThrough), (1, Mw.undefinedNoNext)] [(3, Mw.passThrough)] (by decide)
  simpa using h

/-! ## Route table and radix matcher (src/src/prince.ts, main variant)

Handlers are opaque `Nat` identifiers.  The per-request mutable `params` object is an
insertion-ordered association list; property assignment updates in place or appends
(`setAssoc`), `delete` removes the key (`delAssoc`), mirroring JS object semantics.
The `${method}:${path}` string keys of `staticRoutes` and `routeCache` are modelled as
`(method, path)` pairs (the key is injective because HTTP method names contain no
colon).  The `routeCache` memoisation is omitted: it is cleared by every `add` and
only replays a previous `findRoute` result for a repeated request, so a single-request
model computes the same answers. -/

/-- JS object property assignment on a string-keyed record: keys are unique in a JS
object, so assignment overwrites the entry in place if the key exists (keeping
insertion order) and appends otherwise. -/
def setAssoc {κ α : Type} [DecidableEq κ] : List (κ × α) → κ → α → List (κ × α)
  | [], k, v => [(k, v)]
  | kv :: t, k, v => if kv.1 = k then (k, v) :: t else kv :: setAssoc t k v

/-- JS object property read: value of the entry with this key, if any. -/
def getAssoc {κ α : Type} [DecidableEq κ] : List (κ × α) → κ → Option α
  | [], _ => none
  | kv :: t, k => if kv.1 = k then some kv.2 else getAssoc t k

/-- JS `delete obj[k]`. -/
def delAssoc {κ α : Type} [DecidableEq κ] (l : List (κ × α)) (k : κ) : List (κ × α) :=
  l.filter (fun kv => !decide (kv.1 = k))

/-- JS `s.split(sep)` at the character level (keeps empty pieces; `"".split` is `[""]`). -/
def jsSplitAux (sep : Char) : List Char → List Char → List (List Char)
  | [], acc => [acc.reverse]
  | c :: cs, acc =>
    if c = sep then acc.reverse :: jsSplitAux sep cs [] else jsSplitAux sep cs (c :: acc)

/-- JS `s.split("/")`. -/
def jsSplitSlash (s : String) : List String :=
  (jsSplitAux '/' s.data []).map String.mk

/-- JS `s.startsWith(c)` for a one-character prefix. -/
def strStartsWithChar (s : String) (c : Char) : Bool :=
  match s.data with
  | [] => false
  | d :: _ => d = c

/-- JS `s.endsWith(c)` for a one-character suffix. -/
def strEndsWithChar (s : String) (c : Char) : Bool :=
  match s.data.getLast? with
  | some d => d = c
  | none => false

/-- JS `s.slice(1)`. -/
def strDropFirst (s : String) : String := String.mk (s.data.drop 1)

/-- JS `s.slice(0, -1)`. -/
def strDropLast (s : String) : String := String.mk s.data.dropLast

/-- JS `s.includes(c)` for one character. -/
def strContainsChar (s : String) (c : Char) : Bool := s.data.any (fun d => d = c)

/-- JS `array.join(sep)`. -/
def joinSep (sep : String) : List String → String
  | [] => ""
  | [x] => x
  | x :: xs => x ++ sep ++ joinSep sep xs

/-- Captured route parameters, in binding order. -/
abbrev Params := List (String × String)

/-- Path normalisation in `Prince.add` (lines 133-134): force a leading `/`, strip one
trailing `/` except for the root path. -/
def normalizePath (path : String) : String :=
  let p := if strStartsWithChar path '/' then path else "/" ++ path
  if p ≠ "/" ∧ strEndsWithChar p '/' then strDropLast p else p

/-- Segment split used by `add`, `findRoute` and `matchPath`:
`path === "/" ? [""] : path.split("/").slice(1)`. -/
def pathParts (p : String) : List String :=
  if p = "/" then [""] else (jsSplitSlash p).drop 1

/-- Static-route test in `add` (lines 139-141): no part contains `:`, `*` or `(`. -/
def isStaticParts (parts : List String) : Bool :=
  !(parts.any (fun part =>
      strContainsChar part ':' || strContainsChar part '*' || strContainsChar part '('))

/-- One entry of `rawRoutes`. -/
structure RouteEntry where
  method : String
  path : String
  parts : List String
  handler : Nat
deriving DecidableEq, Repr

/-- Router registration state: the raw route list and the static fast-path map. -/
structure PrinceState where
  rawRoutes : List RouteEntry
  staticRoutes : List ((String × String) × Nat)
deriving DecidableEq, Repr

/-- The private `add` method (lines 132-151). -/
def addRoute (st : PrinceState) (method rawPath : String) (handler : Nat) : PrinceState :=
  let path := normalizePath rawPath
  let parts := pathParts path
  let raw := st.rawRoutes ++ [⟨method, path, parts, handler⟩]
  if isStaticParts parts then ⟨raw, setAssoc st.staticRoutes (method, path) handler⟩
  else ⟨raw, st.staticRoutes⟩

/-- A router built by a sequence of `get`/`post`/... registrations
(method, path, handler-id), in order. -/
def registerAll (regs : List (String × String × Nat)) : PrinceState :=
  regs.foldl (fun st r => addRoute st r.1 r.2.1 r.2.2) ⟨[], []⟩

/-- A node of the simplified radix tree (interface `RadixNode`, lines 34-41). -/
inductive RadixNode where
  | node (pattern : String) (handlers : List (String × Nat)) (children : List RadixNode)
      (paramName : Option String) (isWildcard : Bool) (isCatchAll : Bool)
deriving Repr

def RadixNode.pattern : RadixNode → String
  | .node p _ _ _ _ _ => p

def RadixNode.handlers : RadixNode → List (String × Nat)
  | .node _ h _ _ _ _ => h

def RadixNode.children : RadixNode → List RadixNode
  | .node _ _ c _ _ _ => c

def RadixNode.paramName : RadixNode → Option String
  | .node _ _ _ pn _ _ => pn

def RadixNode.isWildcard : RadixNode → Bool
  | .node _ _ _ _ w _ => w

def RadixNode.isCatchAll : RadixNode → Bool
  | .node _ _ _ _ _ ca => ca

/-- Node creation in `insertRoute` (lines 192-206): classify the part by its syntax. -/
def newRadixNode (part : String) : RadixNode :=
  .node part [] []
    (if strStartsWithChar part ':' then some (strDropFirst part) else none)
    (part == "*") (part == "**")

/-- `currentNode.handlers[route.method] = route.handler` (line 214). -/
def setHandlersNode : RadixNode → String → Nat → RadixNode
  | .node pat hs cs pn w ca, m, h => .node pat (setAssoc hs m h) cs pn w ca

/-- Locate the first child whose `pattern` equals the part (the `found` scan of
`insertRoute`, lines 183-189), returning the children before it, the child, and the
children after it. -/
def splitFirst : List RadixNode → String → Option (List RadixNode × RadixNode × List RadixNode)
  | [], _ => none
  | c :: cs, p =>
    if c.pattern == p then some ([], c, cs)
    else
      match splitFirst cs p with
      | some (pre, x, post) => some (c :: pre, x, post)
      | none => none

/-- `Prince.insertRoute` (lines 175-215): walk the parts, descending into the first
child with an equal pattern or pushing a fresh node at the end of `children`, then
record the handler at the final node. -/
def insertParts : RadixNode → List String → String → Nat → RadixNode
  | n, [], m, h => setHandlersNode n m h
  | .node pat hs cs pn w ca, p :: rest, m, h =>
    match splitFirst cs p with
    | some (pre, c, post) => .node pat hs (pre ++ insertParts c rest m h :: post) pn w ca
    | none => .node pat hs (cs ++ [insertParts (newRadixNode p) rest m h]) pn w ca

/-- The root node created by `buildRouter` (lines 157-161). -/
def emptyRoot : RadixNode := .node "" [] [] none false false

/-- `Prince.buildRouter` (lines 154-173): insert every raw route whose
`${method}:${path}` key is not in the static map. -/
def buildRouter (st : PrinceState) : RadixNode :=
  st.rawRoutes.foldl
    (fun root r =>
      if (getAssoc st.staticRoutes (r.method, r.path)).isSome then root
      else insertParts root r.parts r.method r.handler)
    emptyRoot

/-- Pointwise segment check of `matchPath` when the lengths agree (lines 290-301). -/
def partsPairwise : List String → List String → Bool
  | [], [] => true
  | rp :: rps, qp :: qps =>
    (strStartsWithChar rp ':' || rp == "*" || rp == "**" || rp == qp) && partsPairwise rps qps
  | _, _ => false

/-- `Prince.matchPath` (lines 278-304): with differing segment counts the route matches
iff it contains a `**` part anywhere; with equal counts, parts are compared pointwise
with `:name`, `*` and `**` matching any single segment. -/
def matchPath (routePath requestPath : String) : Bool :=
  let rp := pathParts routePath
  let qp := pathParts requestPath
  if rp.length ≠ qp.length then rp.contains "**" else partsPairwise rp qp

/-- JS truthiness of `child.paramName`: present and non-empty (a route part `":"`
stores the empty name, which is falsy). -/
def hasParamName (c : RadixNode) : Bool :=
  match c.paramName with
  | some n => n != ""
  | none => false

/-- Guard of the static-children pass (line 316). -/
def isStaticChild (c : RadixNode) : Bool :=
  !hasParamName c && !c.isWildcard && !c.isCatchAll

/-- The param name the matcher would bind for this child (`child.paramName` truthy). -/
def activeParam (c : RadixNode) : Option String :=
  match c.paramName with
  | some n => if n == "" then none else some n
  | none => none

/-- Static-children pass of `matchRoute` (lines 314-322): try each child with an equal
pattern; a failed recursive call leaves whatever the shared `params` object now holds
(threaded on). -/
def tryStaticL (recur : RadixNode → Params → Option Nat × Params) :
    List RadixNode → String → Params → Option Nat × Params
  | [], _, params => (none, params)
  | c :: cs, seg, params =>
    if isStaticChild c && c.pattern == seg then
      match recur c params with
      | (some h, p) => (some h, p)
      | (none, p) => tryStaticL recur cs seg p
    else tryStaticL recur cs seg params

/-- Param-children pass (lines 324-332): bind `params[name] = segment`, recurse, and on
failure `delete params[name]` before trying the next child. -/
def tryParamL (recur : RadixNode → Params → Option Nat × Params) :
    List RadixNode → String → Params → Option Nat × Params
  | [], _, params => (none, params)
  | c :: cs, seg, params =>
    match activeParam c with
    | some nm =>
      match recur c (setAssoc params nm seg) with
      | (some h, p) => (some h, p)
      | (none, p) => tryParamL recur cs seg (delAssoc p nm)
    | none => tryParamL recur cs seg params

/-- Wildcard-children pass (lines 334-340): recurse past one segment, no binding. -/
def tryWildL (recur : RadixNode → Params → Option Nat × Params) :
    List RadixNode → Params → Option Nat × Params
  | [], params => (none, params)
  | c :: cs, params =>
    if c.isWildcard then
      match recur c params with
      | (some h, p) => (some h, p)
      | (none, p) => tryWildL recur cs p
    else tryWildL recur cs params

/-- Catch-all pass (lines 342-350): a catch-all child with a handler for the method
ends the walk immediately, ignoring all remaining segments and binding nothing. -/
def tryCatchL (method : String) : List RadixNode → Params → Option Nat × Params
  | [], params => (none, params)
  | c :: cs, params =>
    if c.isCatchAll then
      match getAssoc c.handlers method with
      | some h => (some h, params)
      | none => tryCatchL method cs params
    else tryCatchL method cs params

/-- `Prince.matchRoute` (lines 306-353).  The source walks `segments` with an `index`;
the model passes the remaining suffix.  The second component is the state of the shared
`params` object when the call returns (mutations from failed branches included).  The
fuel only bounds recursion depth; `matchRoute` supplies `segments.length + 1`, which is
exact since every level consumes one segment. -/
def matchRouteF (method : String) : Nat → RadixNode → List String → Params → Option Nat × Params
  | 0, _, _, params => (none, params)
  | fuel + 1, n, rest, params =>
    match rest with
    | [] => (getAssoc n.handlers method, params)
    | seg :: tail =>
      match tryStaticL (fun c p => matchRouteF method fuel c tail p) n.children seg params with
      | (some h, p) => (some h, p)
      | (none, p1) =>
        match tryParamL (fun c p => matchRouteF method fuel c tail p) n.children seg p1 with
        | (some h, p) => (some h, p)
        | (none, p2) =>
          match tryWildL (fun c p => matchRouteF method fuel c tail p) n.children p2 with
          | (some h, p) => (some h, p)
          | (none, p3) => tryCatchL method n.children p3

/-- Entry point of the tree walk, `this.matchRoute(this.buildRouter(), segments,
method)` with a fresh `params` object. -/
def matchRoute (n : RadixNode) (segments : List String) (method : String) (params : Params) :
    Option Nat × Params :=
  matchRouteF method (segments.length + 1) n segments params

/-- The `allowedMethods` set of `findRoute` (lines 239-247): methods of the raw routes
whose `matchPath` accepts this pathname, first occurrence order, no duplicates (JS
`Set` insertion order, read back by `Array.from`). -/
def allowedFor (st : PrinceState) (pathname : String) : List String :=
  st.rawRoutes.foldl
    (fun acc r =>
      if matchPath r.path pathname then
        (if acc.contains r.method then acc else acc ++ [r.method])
      else acc) []

/-- The `pathExists` flag of `findRoute`. -/
def pathExistsB (st : PrinceState) (pathname : String) : Bool :=
  st.rawRoutes.any (fun r => matchPath r.path pathname)

/-- Result shape of `findRoute`; `handler = none` with `allowedMethods = some _` is the
method-not-allowed marker (the JS `handler: null`). -/
structure RouteMatch where
  handler : Option Nat
  params : Params
  allowedMethods : Option (List String)
deriving DecidableEq, Repr

/-- `Prince.findRoute` (lines 218-276) on a freshly-registered router (empty cache):
static fast path first, then the existence scan, then the radix walk, then the
method-not-allowed result. -/
def findRoute (st : PrinceState) (method pathname : String) : Option RouteMatch :=
  match getAssoc st.staticRoutes (method, pathname) with
  | some h => some ⟨some h, [], none⟩
  | none =>
    if !pathExistsB st pathname then none
    else
      match matchRoute (buildRouter st) (pathParts pathname) method [] with
      | (some h, p) => some ⟨some h, p, none⟩
      | (none, _) => some ⟨none, [], some (allowedFor st pathname)⟩

/-- `Prince.json(data, status)` (lines 113-118) with an already-serialised body. -/
def jsonRsp (body : String) (status : Nat) : Rsp :=
  ⟨status, [("Content-Type", "application/json")], body⟩

/-- The serialised 404 body `JSON.stringify({error: "Not Found"})`. -/
def notFoundBody : String := "\x7b\"error\":\"Not Found\"\x7d"

/-- The serialised 405 body. -/
def mnaBody : String := "\x7b\"error\":\"Method Not Allowed\"\x7d"

/-- Outcome of `Prince.handleFetch` (lines 436-462) before handler execution: either a
finished error response, or "run `executeHandler` with this handler and params". -/
inductive Dispatch where
  | response (r : Rsp)
  | execute (handler : Nat) (params : Params)
deriving DecidableEq, Repr

/-- `Prince.handleFetch` (lines 436-462): 404 on no match, 405 with an `Allow` header
on a method-not-allowed marker, otherwise dispatch to the matched handler. -/
def handleFetch (st : PrinceState) (method pathname : String) : Dispatch :=
  match findRoute st method pathname with
  | none => .response (jsonRsp notFoundBody 404)
  | some m =>
    if m.allowedMethods.isSome && m.handler.isNone then
      .response ⟨405,
        [("Allow", joinSep ", " (m.allowedMethods.getD [])),
         ("Content-Type", "application/json")], mnaBody⟩
    else
      .execute (m.handler.getD 0) m.params

/-! ## Association-list lemmas -/

theorem getAssoc_setAssoc {κ α : Type} [DecidableEq κ] (l : List (κ × α)) (k k2 : κ) (v : α) :
    getAssoc (setAssoc l k v) k2 = if k2 = k then some v else getAssoc l k2 := by
  induction l with
  | nil =>
    by_cases h : k2 = k
    · simp [setAssoc, getAssoc, h]
    · have hne : ¬k = k2 := fun hh => h hh.symm
      simp [setAssoc, getAssoc, h, hne]
  | cons kv t ih =>
    by_cases hk : kv.1 = k
    · by_cases h2 : k2 = k
      · simp [setAssoc, getAssoc, hk, h2]
      · have hne : ¬k = k2 := fun hh => h2 hh.symm
        simp [setAssoc, getAssoc, hk, h2, hne]
    · by_cases h2 : kv.1 = k2
      · have : k2 ≠ k := fun hh => hk (h2.trans hh)
        simp [setAssoc, getAssoc, hk, h2, this]
      · simp [setAssoc, getAssoc, hk, h2, ih]

theorem getAssoc_delAssoc {κ α : Type} [DecidableEq κ] (l : List (κ × α)) (k k2 : κ) :
    getAssoc (delAssoc l k) k2 = if k2 = k then none else getAssoc l k2 := by
  induction l with
  | nil => by_cases h : k2 = k <;> simp [delAssoc, getAssoc, h]
  | cons kv t ih =>
    by_cases hk : kv.1 = k
    · have : kv.1 ≠ k2 ∨ k2 = k := by
        by_cases h2 : k2 = k
        · exact Or.inr h2
        · exact Or.inl (fun hh => h2 (hh.symm ▸ hk))
      by_cases h2 : k2 = k <;> simp_all [delAssoc, getAssoc, hk]
    · by_cases h2 : kv.1 = k2
      · have hne : k2 ≠ k := fun hh => hk (h2.trans hh)
        simp [delAssoc, getAssoc, hk, h2, hne, List.filter]
      · simp_all [delAssoc, getAssoc, List.filter]

theorem delAssoc_setAssoc_absent {κ α : Type} [DecidableEq κ] (l : List (κ × α)) (k : κ) (v : α)
    (habs : getAssoc l k = none) :
    delAssoc (setAssoc l k v) k = delAssoc l k := by
  induction l with
  | nil => simp [setAssoc, delAssoc, List.filter]
  | cons kv t ih =>
    by_cases hk : kv.1 = k
    · simp [getAssoc, hk] at habs
    · simp only [getAssoc, hk, if_false] at habs
      simp [setAssoc, delAssoc, hk, List.filter] at *
      exact ih habs

theorem delAssoc_of_absent {κ α : Type} [DecidableEq κ] (l : List (κ × α)) (k : κ)
    (habs : getAssoc l k = none) :
    delAssoc l k = l := by
  induction l with
  | nil => rfl
  | cons kv t ih =>
    by_cases hk : kv.1 = k
    · simp [getAssoc, hk] at habs
    · simp only [getAssoc, hk, if_false] at habs
      simp [delAssoc, hk, List.filter] at *
      exact ih habs

theorem setAssoc_absent {κ α : Type} [DecidableEq κ] (l : List (κ × α)) (k : κ) (v : α)
    (habs : getAssoc l k = none) :
    setAssoc l k v = l ++ [(k, v)] := by
  induction l with
  | nil => rfl
  | cons kv t ih =>
    by_cases hk : kv.1 = k
    · simp [getAssoc, hk] at habs
    · simp only [getAssoc, hk, if_false] at habs
      simp [setAssoc, hk, ih habs]

/-! ## Basic router lemmas -/

theorem partsPairwise_self (l : List String) : partsPairwise l l = true := by
  induction l with
  | nil => rfl
  | cons p t ih => simp [partsPairwise, ih]

/-- A path always `matchPath`-matches itself. -/
theorem matchPath_self (p : String) : matchPath p p = true := by
  simp [matchPath, partsPairwise_self]

/-- Every entry of the static fast-path map corresponds to a registered raw route with
that method and (normalised) path. -/
def StaticInv (st : PrinceState) : Prop :=
  ∀ mth pth h, getAssoc st.staticRoutes (mth, pth) = some h →
    ∃ r ∈ st.rawRoutes, r.method = mth ∧ r.path = pth

theorem staticInv_addRoute (st : PrinceState) (m p : String) (hdl : Nat)
    (hinv : StaticInv st) : StaticInv (addRoute st m p hdl) := by
  intro mth pth h hget
  unfold addRoute at hget ⊢
  by_cases hstat : isStaticParts (pathParts (normalizePath p)) = true
  · simp only [hstat, if_true] at hget ⊢
    rw [getAssoc_setAssoc] at hget
    by_cases hk : (mth, pth) = (m, normalizePath p)
    · refine ⟨⟨m, normalizePath p, pathParts (normalizePath p), hdl⟩, by simp, ?_, ?_⟩
      · exact (Prod.mk.injEq _ _ _ _ ▸ hk).1.symm
      · exact (Prod.mk.injEq _ _ _ _ ▸ hk).2.symm
    · simp only [hk, if_false] at hget
      obtain ⟨r, hr, hrm, hrp⟩ := hinv mth pth h hget
      exact ⟨r, List.mem_append_left _ hr, hrm, hrp⟩
  · simp only [hstat, if_false] at hget ⊢
    obtain ⟨r, hr, hrm, hrp⟩ := hinv mth pth h hget
    exact ⟨r, List.mem_append_left _ hr, hrm, hrp⟩

theorem staticInv_foldl (regs : List (String × String × Nat)) :
    ∀ (st : PrinceState), StaticInv st →
      StaticInv (regs.foldl (fun st r => addRoute st r.1 r.2.1 r.2.2) st) := by
  induction regs with
  | nil => intro st h; exact h
  | cons r t ih =>
    intro st h
    exact ih _ (staticInv_addRoute st r.1 r.2.1 r.2.2 h)

theorem staticInv_registerAll (regs : List (String × String × Nat)) :
    StaticInv (registerAll regs) := by
  unfold registerAll
  exact staticInv_foldl regs ⟨[], []⟩ (by intro mth pth h hget; simp [getAssoc] at hget)

/-- C4: a request whose path matches no registered pattern under `matchPath` (the
matcher's own path-matching relation) is answered 404 Not Found with the structured
JSON body, never a 405: the existence scan fails, and the static fast path cannot hit
because a static hit would name a registered route whose path equals the request path
and hence matches it. -/
theorem c4_unmatched_is_404 (regs : List (String × String × Nat)) (m pathname : String)
    (hno : ∀ r ∈ (registerAll regs).rawRoutes, matchPath r.path pathname = false) :
    handleFetch (registerAll regs) m pathname = .response (jsonRsp notFoundBody 404) := by
  have hstatic : getAssoc (registerAll regs).staticRoutes (m, pathname) = none := by
    cases hget : getAssoc (registerAll regs).staticRoutes (m, pathname) with
    | none => rfl
    | some h =>
      obtain ⟨r, hr, hrm, hrp⟩ := staticInv_registerAll regs m pathname h hget
      have := hno r hr
      rw [hrp] at this
      rw [matchPath_self] at this
      exact absurd this (by simp)
  have hex : pathExistsB (registerAll regs) pathname = false := by
    unfold pathExistsB
    simp only [List.any_eq_false]
    intro r hr
    simp [hno r hr]
  unfold handleFetch findRoute
  rw [hstatic]
  simp [hex]

/-- C4 witness: one registered route `GET /a`, request `GET /b`. -/
theorem c4_unmatched_is_404_witness :
    handleFetch (registerAll [("GET", "/a", 1)]) "GET" "/b" =
      .response (jsonRsp notFoundBody 404) :=
  c4_unmatched_is_404 [("GET", "/a", 1)] "GET" "/b" (by decide)

/-- C2: with a literal route and a parameterized sibling registered in either order, a
request to the literal path resolves to the literal route's handler (with no captured
params) and never to the param route's handler.  The literal route is static, so `add`
put it in the static fast-path map, which `findRoute` consults first; registration
order cannot matter because the param route (its pattern being non-static) never enters
that map.  In the radix walk itself the strict precedence holds as well: the
static-children pass runs first, so whenever it produces a match, that match is the
result of `matchRoute` — literal children are tried before Param, Wildcard and
CatchAll children (third conjunct). -/
theorem c2_literal_beats_param (m litPath parPath : String) (h1 h2 : Nat)
    (hlit : isStaticParts (pathParts (normalizePath litPath)) = true)
    (hpar : isStaticParts (pathParts (normalizePath parPath)) = false) :
    (findRoute (registerAll [(m, litPath, h1), (m, parPath, h2)]) m (normalizePath litPath)
        = some ⟨some h1, [], none⟩ ∧
     findRoute (registerAll [(m, parPath, h2), (m, litPath, h1)]) m (normalizePath litPath)
        = some ⟨some h1, [], none⟩) ∧
    ∀ (fuel : Nat) (n : RadixNode) (seg : String) (tail : List String) (params : Params)
      (h : Nat) (p : Params),
      tryStaticL (fun c q => matchRouteF m fuel c tail q) n.children seg params = (some h, p) →
      matchRouteF m (fuel + 1) n (seg :: tail) params = (some h, p) := by
  refine ⟨⟨?_, ?_⟩, ?_⟩
  · simp [registerAll, addRoute, hlit, hpar, findRoute, getAssoc, setAssoc]
  · simp [registerAll, addRoute, hlit, hpar, findRoute, getAssoc, setAssoc]
  · intro fuel n seg tail params h p hstatic
    simp [matchRouteF, hstatic]

/-- C2 witness: `GET /users/me` (handler 1) and `GET /users/:id` (handler 2); in both
registration orders the request `GET /users/me` yields handler 1 with no params. -/
theorem c2_literal_beats_param_witness :
    findRoute (registerAll [("GET", "/users/me", 1), ("GET", "/users/:id", 2)]) "GET"
        (normalizePath "/users/me") = some ⟨some 1, [], none⟩ ∧
    findRoute (registerAll [("GET", "/users/:id", 2), ("GET", "/users/me", 1)]) "GET"
        (normalizePath "/users/me") = some ⟨some 1, [], none⟩ :=
  (c2_literal_beats_param "GET" "/users/me" "/users/:id" 1 2 (by decide) (by decide)).1

/-! ## Trie-draft matcher (src/src/prince.ts, second variant, lines 489-890)

This draft binds a catch-all under the reserved name `"**"`: `buildRouter` stores
`catchAllChild = { name: "**", node }` and the `fetch` walk executes
`params[name] = segments.slice(i).join("/")` (lines 844-849).  The draft's `add`
uppercases the method; the model takes methods already uppercase. -/

/-- A `TrieNode` of the trie draft (lines 509-515). -/
inductive TrieNode where
  | mk (children : List (String × TrieNode)) (paramChild : Option (String × TrieNode))
      (wildcardChild : Option TrieNode) (catchAllChild : Option (Option String × TrieNode))
      (handlers : Option (List (String × Nat)))
deriving Repr

def emptyTrie : TrieNode := .mk [] none none none none

def TrieNode.handlersOf : TrieNode → Option (List (String × Nat))
  | .mk _ _ _ _ hs => hs

/-- `node.handlers ??= {}; node.handlers[method] = handler`. -/
def trieSetHandler : TrieNode → String → Nat → TrieNode
  | .mk cs pc wc cac hs, m, h => .mk cs pc wc cac (some (setAssoc (hs.getD []) m h))

/-- The per-route insertion loop of the draft's `buildRouter` (lines 708-730): `**`
creates (or reuses) the catch-all child with name `"**"` and breaks, so the handler
lands on the catch-all node; `*`, `:name` and literal parts descend, creating children
on demand. -/
def trieInsert : TrieNode → List String → String → Nat → TrieNode
  | n, [], m, h => trieSetHandler n m h
  | .mk cs pc wc cac hs, p :: rest, m, h =>
    if p = "**" then
      match cac with
      | some (nm, c) => .mk cs pc wc (some (nm, trieSetHandler c m h)) hs
      | none => .mk cs pc wc (some (some "**", trieSetHandler emptyTrie m h)) hs
    else if p = "*" then
      match wc with
      | some c => .mk cs pc (some (trieInsert c rest m h)) cac hs
      | none => .mk cs pc (some (trieInsert emptyTrie rest m h)) cac hs
    else if strStartsWithChar p ':' then
      match pc with
      | some (nm, c) => .mk cs (some (nm, trieInsert c rest m h)) wc cac hs
      | none => .mk cs (some (strDropFirst p, trieInsert emptyTrie rest m h)) wc cac hs
    else
      .mk (setAssoc cs p (trieInsert ((getAssoc cs p).getD emptyTrie) rest m h)) pc wc cac hs

/-- The draft's `buildRouter` (lines 695-733) fed by its `add` normalisation: the root
route (`parts = [""]`) stores its handler on the root node directly. -/
def trieBuild (routes : List (String × String × Nat)) : TrieNode :=
  routes.foldl
    (fun root r =>
      let parts := pathParts (normalizePath r.2.1)
      if parts = [""] then trieSetHandler root r.1 r.2.2
      else trieInsert root parts r.1 r.2.2)
    emptyTrie

/-- `pathname === "/" ? [] : pathname.slice(1).split("/")` (line 804). -/
def trieSegments (p : String) : List String :=
  if p = "/" then [] else jsSplitSlash (strDropFirst p)

/-- The route-matching loop of the draft's `fetch` (lines 829-853): literal child,
then param child (binding the segment), then wildcard child, then catch-all child —
which joins all remaining segments with `"/"`, binds them under its name if it has
one, and ends the walk. -/
def trieWalk : TrieNode → List String → Params → Option (TrieNode × Params)
  | n, [], params => some (n, params)
  | .mk cs pc wc cac _, seg :: rest, params =>
    match getAssoc cs seg with
    | some c => trieWalk c rest params
    | none =>
      match pc with
      | some (nm, c) => trieWalk c rest (setAssoc params nm seg)
      | none =>
        match wc with
        | some c => trieWalk c rest params
        | none =>
          match cac with
          | some (nmOpt, c) =>
            some (c,
              match nmOpt with
              | some nm => setAssoc params nm (joinSep "/" (seg :: rest))
              | none => params)
          | none => none

/-- Outcome of the draft's `fetch` dispatch (lines 855-874). -/
inductive TrieOutcome where
  | notFound
  | methodNotAllowed
  | execute (h : Nat) (params : Params)
deriving DecidableEq, Repr

/-- Dispatch of the draft's `fetch`: 404 when the walk fails or the final node has no
handlers, 405 when it has handlers but none for this method, else run the handler with
the collected params. -/
def trieDispatch (root : TrieNode) (method pathname : String) : TrieOutcome :=
  match trieWalk root (trieSegments pathname) [] with
  | none => .notFound
  | some (n, params) =>
    match n.handlersOf with
    | none => .notFound
    | some hs =>
      match getAssoc hs method with
      | some h => .execute h params
      | none => .methodNotAllowed

/-- C9: after registering `GET /static/**`, a `GET /static/css/a.css` request matches
the route in the main radix matcher — the catch-all absorbs all remaining segments
(that matcher binds no remainder name) — and in the trie-draft matcher, where the
catch-all is bound to the reserved name `"**"`, the remainder binding is exactly
`"css/a.css"`, the remaining segments joined by `"/"`. -/
theorem c9_catch_all_remainder :
    findRoute (registerAll [("GET", "/static/**", 5)]) "GET" "/static/css/a.css"
      = some ⟨some 5, [], none⟩ ∧
    trieDispatch (trieBuild [("GET", "/static/**", 5)]) "GET" "/static/css/a.css"
      = .execute 5 [("**", "css/a.css")] := by
  constructor
  · rfl
  · rfl

/-! ## Error path (src/src/prince.ts, `Prince.fetch`, lines 464-475)

`fetch` wraps `handleFetch` in a try/catch: a registered error handler wins; otherwise
dev mode answers `this.json({ error: String(err), stack: err.stack }, 500)` and
production mode answers `this.json({ error: "Internal Server Error" }, 500)`.  With no
middleware registered, `executeHandler`'s `next()` immediately awaits the route
handler, so a synchronous throw from the handler propagates to `fetch`'s catch. -/

/-- A thrown JS `Error`: its `name`, `message` and `stack`. -/
structure JsError where
  name : String
  message : String
  stack : String
deriving DecidableEq, Repr

/-- JS `String(err)` for an `Error`, per `Error.prototype.toString`:
`name`, `": "`, `message`, eliding the empty pieces. -/
def errString (e : JsError) : String :=
  if e.message = "" then e.name
  else if e.name = "" then e.message
  else e.name ++ ": " ++ e.message

/-- `JSON.stringify` of a flat object with string values (the error bodies built by
`fetch`; the strings involved contain no characters needing JSON escaping). -/
def jsonStringifyFlat (fields : List (String × String)) : String :=
  "\x7b" ++ joinSep "," (fields.map (fun kv => "\"" ++ kv.1 ++ "\":\"" ++ kv.2 ++ "\"")) ++ "\x7d"

/-- The catch branch of `Prince.fetch` (lines 464-475) applied to the outcome of
`handleFetch`: pass a produced response through; on a thrown error use the pluggable
error handler, else the dev-mode body with `String(err)` and the stack, else the
generic production 500. -/
def princeFetch (devMode : Bool) (errorHandler : Option (JsError → Rsp))
    (outcome : Except JsError Rsp) : Rsp :=
  match outcome with
  | .ok r => r
  | .error e =>
    match errorHandler with
    | some handle => handle e
    | none =>
      if devMode then
        jsonRsp (jsonStringifyFlat [("error", errString e), ("stack", e.stack)]) 500
      else
        jsonRsp (jsonStringifyFlat [("error", "Internal Server Error")]) 500

/-- Routing composed with a throwing handler and an empty middleware chain: an error
response from `handleFetch` is returned as-is; a matched handler's outcome (normal or
thrown) is the request's outcome. -/
def dispatchOutcome (st : PrinceState) (method pathname : String)
    (handlerRes : Nat → Except JsError Rsp) : Except JsError Rsp :=
  match handleFetch st method pathname with
  | .response r => .ok r
  | .execute h _ => handlerRes h

/-- `Prince.fetch` end to end for a single request with no middleware. -/
def princeFetchFull (devMode : Bool) (errorHandler : Option (JsError → Rsp))
    (st : PrinceState) (method pathname : String)
    (handlerRes : Nat → Except JsError Rsp) : Rsp :=
  princeFetch devMode errorHandler (dispatchOutcome st method pathname handlerRes)

/-- C7 counterexample: register `GET /x`, let its handler throw `Error("boom")`, no
custom error handler, dev mode off.  The response is status 500 with body
`{"error":"Internal Server Error"}` — not the claimed `{"error":"boom"}`. -/
theorem c7_boom_counterexample :
    princeFetchFull false none (registerAll [("GET", "/x", 1)]) "GET" "/x"
        (fun _ => .error ⟨"Error", "boom", "trace0"⟩)
      = jsonRsp "\x7b\"error\":\"Internal Server Error\"\x7d" 500 ∧
    ("\x7b\"error\":\"Internal Server Error\"\x7d" : String) ≠ "\x7b\"error\":\"boom\"\x7d" := by
  constructor
  · rfl
  · decide

/-- C7 amended: with no custom error handler, a handler that throws yields status 500;
with dev mode off the body is the generic `{"error":"Internal Server Error"}` (so it
contains no `stack` field, but also not the error's message); with dev mode on the
body carries `String(err)` (for `Error("boom")` that is `"Error: boom"`, not `"boom"`)
and additionally the error's stack trace. -/
theorem c7_error_path_amended (st : PrinceState) (m pathname : String) (h : Nat)
    (ps : Params) (e : JsError)
    (hmatch : handleFetch st m pathname = .execute h ps) :
    princeFetchFull false none st m pathname (fun _ => .error e)
      = jsonRsp (jsonStringifyFlat [("error", "Internal Server Error")]) 500 ∧
    princeFetchFull true none st m pathname (fun _ => .error e)
      = jsonRsp (jsonStringifyFlat [("error", errString e), ("stack", e.stack)]) 500 := by
  constructor <;> simp [princeFetchFull, dispatchOutcome, hmatch, princeFetch]

/-- C7 amended witness: the concrete `GET /x` router with `Error("boom")`; production
mode gives the generic 500 body, dev mode gives `"Error: boom"` plus the stack. -/
theorem c7_error_path_amended_witness :
    princeFetchFull false none (registerAll [("GET", "/x", 1)]) "GET" "/x"
        (fun _ => .error ⟨"Error", "boom", "trace0"⟩)
      = jsonRsp (jsonStringifyFlat [("error", "Internal Server Error")]) 500 ∧
    princeFetchFull true none (registerAll [("GET", "/x", 1)]) "GET" "/x"
        (fun _ => .error ⟨"Error", "boom", "trace0"⟩)
      = jsonRsp (jsonStringifyFlat
          [("error", errString ⟨"Error", "boom", "trace0"⟩),
           ("stack", (⟨"Error", "boom", "trace0"⟩ : JsError).stack)]) 500 :=
  c7_error_path_amended (registerAll [("GET", "/x", 1)]) "GET" "/x" 1 []
    ⟨"Error", "boom", "trace0"⟩ (by decide)

/-! ## Root-variant router (src/prince.ts, second variant, `findHandler`, lines 140-174)

This is the only matcher in the corpus that decodes captured params: it binds
`params[seg.slice(1)] = decodeURIComponent(reqSeg)` inside a try/catch that falls back
to the raw segment.  The decoder is passed as a parameter `d : String → Option String`
(`none` models a thrown `URIError`), so the theorems hold for the real
`decodeURIComponent` whatever its exact graph. -/

/-- One entry of the variant's `dynamicRoutes`. -/
structure DynRoute where
  segments : List String
  methods : List (String × Nat)
deriving DecidableEq, Repr

/-- The variant's registration state: static `routes[path][method]` plus
`dynamicRoutes`. -/
structure PrinceV2 where
  routes : List (String × List (String × Nat))
  dynamicRoutes : List DynRoute
deriving DecidableEq, Repr

/-- Dynamic-route insertion in the variant's `add` (lines 120-131): reuse the entry
with the same segment pattern, else push a fresh one. -/
def v2insertDyn : List DynRoute → List String → String → Nat → List DynRoute
  | [], segs, m, h => [⟨segs, [(m, h)]⟩]
  | r :: rs, segs, m, h =>
    if r.segments = segs then ⟨r.segments, setAssoc r.methods m h⟩ :: rs
    else r :: v2insertDyn rs segs m h

/-- The variant's `add` (lines 118-137): paths containing `:` go to `dynamicRoutes`
with `path.split('/').filter(Boolean)` segments; others to the static `routes` map.
No path normalisation is performed. -/
def v2add (st : PrinceV2) (method path : String) (h : Nat) : PrinceV2 :=
  if strContainsChar path ':' then
    ⟨st.routes, v2insertDyn st.dynamicRoutes ((jsSplitSlash path).filter (fun s => s != "")) method h⟩
  else
    ⟨setAssoc st.routes path (setAssoc ((getAssoc st.routes path).getD []) method h),
      st.dynamicRoutes⟩

/-- A variant router built from a list of registrations. -/
def v2registerAll (regs : List (String × String × Nat)) : PrinceV2 :=
  regs.foldl (fun st r => v2add st r.1 r.2.1 r.2.2) ⟨[], []⟩

/-- The per-route segment loop of `findHandler` (lines 150-167): an empty request
segment fails; a `:name` pattern segment binds `decodeURIComponent(reqSeg)`, falling
back to the raw segment when decoding throws; a literal must match exactly. -/
def v2matchSegs (d : String → Option String) :
    List String → List String → Params → Option Params
  | [], [], params => some params
  | seg :: ss, reqSeg :: rs, params =>
    if reqSeg = "" then none
    else if strStartsWithChar seg ':' then
      v2matchSegs d ss rs (setAssoc params (strDropFirst seg) ((d reqSeg).getD reqSeg))
    else if seg = reqSeg then v2matchSegs d ss rs params
    else none
  | _, _, _ => none

/-- The dynamic-route scan of `findHandler` (lines 146-171): equal segment count, then
the segment loop, then `methods[method] ?? methods["GET"]`. -/
def v2findDyn (d : String → Option String) :
    List DynRoute → List String → String → Option Nat × Params
  | [], _, _ => (none, [])
  | r :: rs, reqSegs, method =>
    if r.segments.length = reqSegs.length then
      match v2matchSegs d r.segments reqSegs [] with
      | some params =>
        match
          (match getAssoc r.methods method with
           | some h => some h
           | none => getAssoc r.methods "GET") with
        | some h => (some h, params)
        | none => v2findDyn d rs reqSegs method
      | none => v2findDyn d rs reqSegs method
    else v2findDyn d rs reqSegs method

/-- `Prince.findHandler` (lines 140-174): static exact match first (with a fall-back to
the `GET` handler of the path), then the dynamic scan. -/
def v2findHandler (d : String → Option String) (st : PrinceV2) (path method : String) :
    Option Nat × Params :=
  let staticHandler :=
    match getAssoc st.routes path with
    | some byM =>
      match getAssoc byM method with
      | some h => some h
      | none => getAssoc byM "GET"
    | none => none
  match staticHandler with
  | some h => (some h, [])
  | none => v2findDyn d st.dynamicRoutes ((jsSplitSlash path).filter (fun s => s != "")) method

/-- Hex digit value, as `decodeURIComponent` reads `%XX` escapes. -/
def hexVal (c : Char) : Option Nat :=
  if '0' ≤ c ∧ c ≤ '9' then some (c.toNat - 48)
  else if 'A' ≤ c ∧ c ≤ 'F' then some (c.toNat - 55)
  else if 'a' ≤ c ∧ c ≤ 'f' then some (c.toNat - 87)
  else none

/-- Percent-decoding of an ASCII-only string, modelling `decodeURIComponent` on the
inputs used in this development: a complete `%XX` escape below 0x80 becomes that
character, a malformed or truncated escape is a thrown `URIError` (`none`), and bytes
at or above 0x80 (which begin multi-byte UTF-8 sequences) are outside the modelled
range. -/
def pctDecodeAux : List Char → Option (List Char)
  | [] => some []
  | '%' :: h :: l :: rest =>
    match hexVal h, hexVal l with
    | some hi, some lo =>
      if hi * 16 + lo < 128 then (pctDecodeAux rest).map (Char.ofNat (hi * 16 + lo) :: ·)
      else none
    | _, _ => none
  | '%' :: _ => none
  | c :: rest => (pctDecodeAux rest).map (c :: ·)

/-- ASCII model of JS `decodeURIComponent`; `none` models a thrown `URIError`. -/
def decodeURIComponentAscii (s : String) : Option String :=
  (pctDecodeAux s.data).map String.mk

/-- C8 counterexample: the main radix matcher (`src/src/prince.ts`, `matchRoute` lines
324-332) captures the raw request segment with no decoding.  With `GET /users/:id`
registered, a request to `/users/%41` binds `id` to `"%41"`, while
`decodeURIComponent("%41")` is `"A"` — so the captured value is not the segment passed
through `decodeURIComponent`. -/
theorem c8_raw_capture_counterexample :
    findRoute (registerAll [("GET", "/users/:id", 3)]) "GET" "/users/%41"
      = some ⟨some 3, [("id", "%41")], none⟩ ∧
    decodeURIComponentAscii "%41" = some "A" ∧
    ("%41" : String) ≠ "A" := by
  refine ⟨rfl, rfl, by decide⟩

theorem mem_setAssoc {κ α : Type} [DecidableEq κ] (l : List (κ × α)) (k : κ) (v : α) :
    ∀ x ∈ setAssoc l k v, x ∈ l ∨ x = (k, v) := by
  induction l with
  | nil => intro x hx; simp [setAssoc] at hx; simp [hx]
  | cons kv t ih =>
    intro x hx
    by_cases hk : kv.1 = k
    · simp only [setAssoc, hk, if_true] at hx
      rcases List.mem_cons.mp hx with h | h
      · exact Or.inr h
      · exact Or.inl (List.mem_cons_of_mem _ h)
    · simp only [setAssoc, hk, if_false] at hx
      rcases List.mem_cons.mp hx with h | h
      · exact Or.inl (h ▸ List.mem_cons_self _ _)
      · rcases ih x h with h2 | h2
        · exact Or.inl (List.mem_cons_of_mem _ h2)
        · exact Or.inr h2

theorem v2matchSegs_sound (d : String → Option String) :
    ∀ (pat req : List String) (ps params : Params),
      v2matchSegs d pat req ps = some params →
      ∀ x ∈ params, x ∈ ps ∨
        ∃ pseg rseg, pseg ∈ pat ∧ rseg ∈ req ∧ strStartsWithChar pseg ':' = true ∧
          x.1 = strDropFirst pseg ∧ x.2 = (d rseg).getD rseg := by
  intro pat
  induction pat with
  | nil =>
    intro req ps params hm x hx
    cases req with
    | nil => simp [v2matchSegs] at hm; subst hm; exact Or.inl hx
    | cons r rs => simp [v2matchSegs] at hm
  | cons seg ss ih =>
    intro req ps params hm x hx
    cases req with
    | nil => simp [v2matchSegs] at hm
    | cons reqSeg rs =>
      simp only [v2matchSegs] at hm
      by_cases hempty : reqSeg = ""
      · simp [hempty] at hm
      · simp only [hempty, if_false] at hm
        by_cases hparam : strStartsWithChar seg ':' = true
        · simp only [hparam, if_true] at hm
          rcases ih rs (setAssoc ps (strDropFirst seg) ((d reqSeg).getD reqSeg)) params hm x hx with h | h
          · rcases mem_setAssoc _ _ _ x h with h2 | h2
            · exact Or.inl h2
            · refine Or.inr ⟨seg, reqSeg, List.mem_cons_self _ _, List.mem_cons_self _ _, hparam, ?_, ?_⟩
              · rw [h2]
              · rw [h2]
          · obtain ⟨pseg, rseg, hp, hr, hs, h1, h2⟩ := h
            exact Or.inr ⟨pseg, rseg, List.mem_cons_of_mem _ hp, List.mem_cons_of_mem _ hr, hs, h1, h2⟩
        · simp only [Bool.not_eq_true] at hparam
          simp only [hparam, Bool.false_eq_true, if_false] at hm
          by_cases heq : seg = reqSeg
          · simp only [heq, if_true] at hm
            rcases ih rs ps params hm x hx with h | h
            · exact Or.inl h
            · obtain ⟨pseg, rseg, hp, hr, hs, h1, h2⟩ := h
              exact Or.inr ⟨pseg, rseg, List.mem_cons_of_mem _ hp, List.mem_cons_of_mem _ hr, hs, h1, h2⟩
          · simp [heq] at hm

theorem v2findDyn_sound (d : String → Option String) :
    ∀ (rs : List DynRoute) (reqSegs : List String) (m : String) (h : Nat) (ps : Params),
      v2findDyn d rs reqSegs m = (some h, ps) →
      ∀ x ∈ ps, ∃ pseg rseg, rseg ∈ reqSegs ∧ strStartsWithChar pseg ':' = true ∧
        x.1 = strDropFirst pseg ∧ x.2 = (d rseg).getD rseg := by
  intro rs
  induction rs with
  | nil => intro reqSegs m h ps hm; simp [v2findDyn] at hm
  | cons r rest ih =>
    intro reqSegs m h ps hm x hx
    simp only [v2findDyn] at hm
    by_cases hlen : r.segments.length = reqSegs.length
    · simp only [hlen, if_true] at hm
      cases hseg : v2matchSegs d r.segments reqSegs [] with
      | none => rw [hseg] at hm; exact ih reqSegs m h ps hm x hx
      | some params =>
        rw [hseg] at hm
        cases hmeth : (match getAssoc r.methods m with
                       | some h => some h
                       | none => getAssoc r.methods "GET") with
        | none => rw [hmeth] at hm; exact ih reqSegs m h ps hm x hx
        | some h2 =>
          rw [hmeth] at hm
          obtain ⟨h2eq, pseq⟩ := Prod.mk.injEq _ _ _ _ ▸ hm
          subst pseq
          rcases v2matchSegs_sound d r.segments reqSegs [] params hseg x hx with habs | hgood
          · simp at habs
          · obtain ⟨pseg, rseg, _, hr, hs, h1, hv⟩ := hgood
            exact ⟨pseg, rseg, hr, hs, h1, hv⟩
    · simp only [hlen, if_false] at hm
      exact ih reqSegs m h ps hm x hx

/-- C8 amended: in the root-variant `findHandler`, every captured param value is the
corresponding request segment passed through `decodeURIComponent`, with the raw
segment as fallback when decoding throws — formally, for every decoder `d` (so in
particular for the real `decodeURIComponent`), every binding produced by a successful
`findHandler` has value `(d rseg).getD rseg` for a request segment `rseg`, and no
exception propagates (the matcher is a total function).  The main radix matcher of
`src/src/prince.ts`, by contrast, captures the raw segment without decoding (see the
counterexample). -/
theorem c8_decode_fallback_amended (d : String → Option String) (st : PrinceV2)
    (path m : String) (h : Nat) (ps : Params)
    (hfind : v2findHandler d st path m = (some h, ps)) :
    ∀ x ∈ ps, ∃ pseg rseg,
      rseg ∈ (jsSplitSlash path).filter (fun s => s != "") ∧
      strStartsWithChar pseg ':' = true ∧
      x.1 = strDropFirst pseg ∧ x.2 = (d rseg).getD rseg := by
  intro x hx
  unfold v2findHandler at hfind
  cases hstat : (match getAssoc st.routes path with
                 | some byM =>
                   match getAssoc byM m with
                   | some h => some h
                   | none => getAssoc byM "GET"
                 | none => none) with
  | some h2 =>
    rw [hstat] at hfind
    simp only at hfind
    obtain ⟨-, pseq⟩ := Prod.mk.injEq _ _ _ _ ▸ hfind
    subst pseq
    simp at hx
  | none =>
    rw [hstat] at hfind
    simp only at hfind
    exact v2findDyn_sound d st.dynamicRoutes _ m h ps hfind x hx

/-- C8 amended witness: route `GET /users/:id`, request path `/users/%41`, decoder
`decodeURIComponentAscii`; `findHandler` succeeds binding `id` to the decoded `"A"`,
and the theorem's conclusion holds of that binding. -/
theorem c8_decode_fallback_amended_witness :
    v2findHandler decodeURIComponentAscii (v2registerAll [("GET", "/users/:id", 3)])
        "/users/%41" "GET" = (some 3, [("id", "A")]) ∧
    ∀ x ∈ ([("id", "A")] : Params), ∃ pseg rseg,
      rseg ∈ (jsSplitSlash "/users/%41").filter (fun s => s != "") ∧
      strStartsWithChar pseg ':' = true ∧
      x.1 = strDropFirst pseg ∧ x.2 = (decodeURIComponentAscii rseg).getD rseg :=
  ⟨rfl, c8_decode_fallback_amended decodeURIComponentAscii
    (v2registerAll [("GET", "/users/:id", 3)]) "/users/%41" "GET" 3 [("id", "A")] rfl⟩

/-! ## Static fast path (claim C6) -/

theorem getAssoc_static_preserved (m normP : String) (hdl : Nat) :
    ∀ (post : List (String × String × Nat)) (st : PrinceState),
      (∀ r ∈ post, ¬(r.1 = m ∧ normalizePath r.2.1 = normP)) →
      getAssoc st.staticRoutes (m, normP) = some hdl →
      getAssoc ((post.foldl (fun st r => addRoute st r.1 r.2.1 r.2.2) st)).staticRoutes
        (m, normP) = some hdl := by
  intro post
  induction post with
  | nil => intro st _ h; exact h
  | cons r rest ih =>
    intro st hno hget
    refine ih _ (fun q hq => hno q (List.mem_cons_of_mem _ hq)) ?_
    unfold addRoute
    by_cases hstat : isStaticParts (pathParts (normalizePath r.2.1)) = true
    · simp only [hstat, if_true]
      rw [getAssoc_setAssoc]
      have hne : (m, normP) ≠ (r.1, normalizePath r.2.1) := by
        intro hcontra
        obtain ⟨e1, e2⟩ := Prod.mk.injEq _ _ _ _ ▸ hcontra
        exact hno r (List.mem_cons_self _ _) ⟨e1.symm, e2.symm⟩
      simp [hne, hget]
    · simp only [hstat, if_false]
      exact hget

/-- C6: for a registered static route R — being the latest registration for its
(method, path) key, which under the implementation's last-write-wins re-registration
semantics is what "R's handler" denotes — a request with exactly R's method and
normalised path is decided by the static fast-path map: the map holds R's handler,
`findRoute` answers with it (empty params, no method-not-allowed marker), and the
response is produced by R's handler, which the chain invokes exactly once when every
registered middleware passes through. -/
theorem c6_static_fast_path (pre post : List (String × String × Nat)) (m p : String)
    (hdl : Nat)
    (hstatic : isStaticParts (pathParts (normalizePath p)) = true)
    (hlast : ∀ r ∈ post, ¬(r.1 = m ∧ normalizePath r.2.1 = normalizePath p)) :
    getAssoc (registerAll (pre ++ (m, p, hdl) :: post)).staticRoutes
        (m, normalizePath p) = some hdl ∧
    findRoute (registerAll (pre ++ (m, p, hdl) :: post)) m (normalizePath p)
      = some ⟨some hdl, [], none⟩ ∧
    ∀ (hres : Rsp) (mws : List Mw), (∀ b ∈ mws, b = Mw.passThrough) →
      ∃ st', runChain hres ((List.range mws.length).zip mws) = some (hres, st', []) ∧
        st'.handlerRuns = 1 := by
  have hget : getAssoc (registerAll (pre ++ (m, p, hdl) :: post)).staticRoutes
      (m, normalizePath p) = some hdl := by
    unfold registerAll
    rw [List.foldl_append]
    simp only [List.foldl_cons]
    apply getAssoc_static_preserved m (normalizePath p) hdl post _ hlast
    show getAssoc (addRoute _ m p hdl).staticRoutes (m, normalizePath p) = some hdl
    unfold addRoute
    simp only [hstatic, if_true]
    rw [getAssoc_setAssoc]
    simp
  refine ⟨hget, ?_, ?_⟩
  · unfold findRoute
    rw [hget]
  · intro hres mws hb
    have hb' : ∀ q ∈ (List.range mws.length).zip mws,
        q.2 = Mw.passThrough ∨ q.2 = Mw.nextThenUndefined :=
      fun q hq => Or.inl (hb q.2 (List.of_mem_zip hq).2)
    have := runNextF_forward hres ((List.range mws.length).zip mws)
      (chainFuel ((List.range mws.length).zip mws)) ⟨[], 0⟩ hb' (by simp [chainFuel])
    refine ⟨⟨List.map Prod.fst ((List.range mws.length).zip mws),
      0 + 1 + countNTU ((List.range mws.length).zip mws)⟩, ?_, ?_⟩
    · rw [runChain, this]
      simp
    · have hcnt : countNTU ((List.range mws.length).zip mws) = 0 := by
        unfold countNTU
        rw [List.length_eq_zero]
        rw [List.filter_eq_nil_iff]
        intro q hq
        have := hb q.2 (List.of_mem_zip hq).2
        simp [this]
      simp [hcnt]

/-- C6 witness: routes `GET /about` (handler 4) then `POST /about` (handler 5); the
request `GET /about` is decided by the static map with handler 4, and with a single
pass-through middleware the handler runs exactly once. -/
theorem c6_static_fast_path_witness :
    getAssoc (registerAll ([] ++ ("GET", "/about", 4) :: [("POST", "/about", 5)])).staticRoutes
        ("GET", normalizePath "/about") = some 4 ∧
    findRoute (registerAll ([] ++ ("GET", "/about", 4) :: [("POST", "/about", 5)])) "GET"
        (normalizePath "/about") = some ⟨some 4, [], none⟩ ∧
    ∀ (hres : Rsp) (mws : List Mw), (∀ b ∈ mws, b = Mw.passThrough) →
      ∃ st', runChain hres ((List.range mws.length).zip mws) = some (hres, st', []) ∧
        st'.handlerRuns = 1 :=
  c6_static_fast_path [] [("POST", "/about", 5)] "GET" "/about" 4 (by decide) (by decide)

/-! ## Backtracking and captured params (claim C10) -/

/-- C10 counterexample: register `GET /:x/:x` and `GET /:x/*/t` and request
`GET /u/v/t`.  The walk binds `x := "u"`, then the failing `/:x/:x` branch overwrites
`x := "v"` and its backtracking `delete params["x"]` erases the binding entirely, so
the successful `/:x/*/t` match is returned with an empty params map — the binding
`("x", "u")` required for the named Param segment of the matched pattern is missing. -/
theorem c10_residual_params_counterexample :
    findRoute (registerAll [("GET", "/:x/:x", 7), ("GET", "/:x/*/t", 8)]) "GET" "/u/v/t"
      = some ⟨some 8, [], none⟩ ∧
    ("x", "u") ∉ ([] : Params) := by
  exact ⟨rfl, by simp⟩

mutual
/-- All param names stored in a subtree, root's own `paramName` first, then the
children in order. -/
def treeNames : RadixNode → List String
  | .node _ _ cs pn _ _ =>
    (match pn with
     | some x => [x]
     | none => []) ++ treeNamesL cs

/-- Param names of a forest, in order. -/
def treeNamesL : List RadixNode → List String
  | [] => []
  | c :: cs => treeNames c ++ treeNamesL cs
end

theorem treeNamesL_append (l1 l2 : List RadixNode) :
    treeNamesL (l1 ++ l2) = treeNamesL l1 ++ treeNamesL l2 := by
  induction l1 with
  | nil => simp [treeNamesL]
  | cons c cs ih => simp [treeNamesL, ih]

theorem treeNames_sublist_of_mem {c : RadixNode} {cs : List RadixNode} (hc : c ∈ cs) :
    List.Sublist (treeNames c) (treeNamesL cs) := by
  induction cs with
  | nil => cases hc
  | cons d ds ih =>
    rcases List.mem_cons.mp hc with h | h
    · subst h
      rw [show treeNamesL (c :: ds) = treeNames c ++ treeNamesL ds from rfl]
      exact List.sublist_append_left _ _
    · rw [show treeNamesL (d :: ds) = treeNames d ++ treeNamesL ds from rfl]
      exact (ih h).trans (List.sublist_append_right _ _)

theorem treeNames_setHandlersNode (n : RadixNode) (m : String) (h : Nat) :
    treeNames (setHandlersNode n m h) = treeNames n := by
  cases n
  simp [setHandlersNode, treeNames]

theorem splitFirst_eq {cs : List RadixNode} {p : String} :
    ∀ {pre c post}, splitFirst cs p = some (pre, c, post) →
      cs = pre ++ c :: post ∧ c.pattern = p := by
  induction cs with
  | nil => intro pre c post hs; simp [splitFirst] at hs
  | cons d ds ih =>
    intro pre c post hs
    simp only [splitFirst] at hs
    by_cases hd : (d.pattern == p) = true
    · rw [if_pos hd] at hs
      simp only [Option.some.injEq, Prod.mk.injEq] at hs
      obtain ⟨h1, h2, h3⟩ := hs
      subst h1; subst h2; subst h3
      exact ⟨rfl, by simpa using hd⟩
    · rw [if_neg hd] at hs
      cases hsp : splitFirst ds p with
      | none => rw [hsp] at hs; simp at hs
      | some trip =>
        obtain ⟨pre2, c2, post2⟩ := trip
        rw [hsp] at hs
        simp only [Option.some.injEq, Prod.mk.injEq] at hs
        obtain ⟨h1, h2, h3⟩ := hs
        obtain ⟨heq, hpat⟩ := ih hsp
        subst h2; subst h3
        refine ⟨?_, hpat⟩
        rw [← h1, heq]
        rfl

/-- A derivation that the radix walk can reach a handler `h` for `method` from `n` by
consuming `rest`, together with the param bindings `bs` collected along that pattern:
literal children bind nothing, a param child binds its name to the consumed segment, a
wildcard binds nothing, and a catch-all child with a handler ends the walk binding
nothing.  The bindings of a derivation are exactly the named Param segments along the
matched pattern, with the raw request segments as values. -/
inductive Matches : RadixNode → List String → String → Nat → Params → Prop where
  | done {n : RadixNode} {m : String} {h : Nat} :
      getAssoc n.handlers m = some h → Matches n [] m h []
  | staticChild {n : RadixNode} {seg : String} {tail : List String} {m : String} {h : Nat}
      {bs : Params} (c : RadixNode) :
      c ∈ n.children → isStaticChild c = true → c.pattern = seg →
      Matches c tail m h bs → Matches n (seg :: tail) m h bs
  | paramChild {n : RadixNode} {seg : String} {tail : List String} {m : String} {h : Nat}
      {bs : Params} {nm : String} (c : RadixNode) :
      c ∈ n.children → activeParam c = some nm →
      Matches c tail m h bs → Matches n (seg :: tail) m h ((nm, seg) :: bs)
  | wildChild {n : RadixNode} {seg : String} {tail : List String} {m : String} {h : Nat}
      {bs : Params} (c : RadixNode) :
      c ∈ n.children → c.isWildcard = true →
      Matches c tail m h bs → Matches n (seg :: tail) m h bs
  | catchAllChild {n : RadixNode} {seg : String} {tail : List String} {m : String} {h : Nat}
      (c : RadixNode) :
      c ∈ n.children → c.isCatchAll = true → getAssoc c.handlers m = some h →
      Matches n (seg :: tail) m h []

theorem tryCatchL_sound (m : String) :
    ∀ (cs : List RadixNode) (params : Params) (h : Nat) (p : Params),
      tryCatchL m cs params = (some h, p) →
      ∃ c ∈ cs, c.isCatchAll = true ∧ getAssoc c.handlers m = some h := by
  intro cs
  induction cs with
  | nil => intro params h p hm; simp [tryCatchL] at hm
  | cons c rest ih =>
    intro params h p hm
    simp only [tryCatchL] at hm
    by_cases hca : c.isCatchAll = true
    · rw [if_pos hca] at hm
      cases hh : getAssoc c.handlers m with
      | some h2 =>
        rw [hh] at hm
        simp only [Prod.mk.injEq, Option.some.injEq] at hm
        exact ⟨c, List.mem_cons_self _ _, hca, by rw [hh, hm.1]⟩
      | none =>
        rw [hh] at hm
        obtain ⟨d, hd, h1, h2⟩ := ih params h p hm
        exact ⟨d, List.mem_cons_of_mem _ hd, h1, h2⟩
    · rw [if_neg hca] at hm
      obtain ⟨d, hd, h1, h2⟩ := ih params h p hm
      exact ⟨d, List.mem_cons_of_mem _ hd, h1, h2⟩

theorem tryStaticL_sound (m : String) (fuel : Nat) (tail : List String) (n : RadixNode)
    (IH : ∀ c params h p, c ∈ n.children →
      matchRouteF m fuel c tail params = (some h, p) → ∃ bs, Matches c tail m h bs) :
    ∀ (cs : List RadixNode), (∀ c ∈ cs, c ∈ n.children) →
      ∀ seg params h p,
        tryStaticL (fun c q => matchRouteF m fuel c tail q) cs seg params = (some h, p) →
        ∃ bs, Matches n (seg :: tail) m h bs := by
  intro cs
  induction cs with
  | nil => intro _ seg params h p hm; simp [tryStaticL] at hm
  | cons c rest ih =>
    intro hsub seg params h p hm
    have hsub' : ∀ d ∈ rest, d ∈ n.children := fun d hd => hsub d (List.mem_cons_of_mem _ hd)
    have hcmem : c ∈ n.children := hsub c (List.mem_cons_self _ _)
    simp only [tryStaticL] at hm
    by_cases hcond : (isStaticChild c && c.pattern == seg) = true
    · rw [if_pos hcond] at hm
      simp only [Bool.and_eq_true, beq_iff_eq] at hcond
      cases hrec : matchRouteF m fuel c tail params with
      | mk r q =>
        rw [hrec] at hm
        cases r with
        | some h2 =>
          simp only [Prod.mk.injEq, Option.some.injEq] at hm
          obtain ⟨bs, hb⟩ := IH c params h2 q hcmem hrec
          exact ⟨bs, Matches.staticChild c hcmem hcond.1 hcond.2 (hm.1 ▸ hb)⟩
        | none =>
          exact ih hsub' seg q h p hm
    · rw [if_neg hcond] at hm
      exact ih hsub' seg params h p hm

theorem tryParamL_sound (m : String) (fuel : Nat) (tail : List String) (n : RadixNode)
    (IH : ∀ c params h p, c ∈ n.children →
      matchRouteF m fuel c tail params = (some h, p) → ∃ bs, Matches c tail m h bs) :
    ∀ (cs : List RadixNode), (∀ c ∈ cs, c ∈ n.children) →
      ∀ seg params h p,
        tryParamL (fun c q => matchRouteF m fuel c tail q) cs seg params = (some h, p) →
        ∃ bs, Matches n (seg :: tail) m h bs := by
  intro cs
  induction cs with
  | nil => intro _ seg params h p hm; simp [tryParamL] at hm
  | cons c rest ih =>
    intro hsub seg params h p hm
    have hsub' : ∀ d ∈ rest, d ∈ n.children := fun d hd => hsub d (List.mem_cons_of_mem _ hd)
    have hcmem : c ∈ n.children := hsub c (List.mem_cons_self _ _)
    simp only [tryParamL] at hm
    cases hap : activeParam c with
    | some nm =>
      rw [hap] at hm
      dsimp only at hm
      cases hrec : matchRouteF m fuel c tail (setAssoc params nm seg) with
      | mk r q =>
        rw [hrec] at hm
        cases r with
        | some h2 =>
          simp only [Prod.mk.injEq, Option.some.injEq] at hm
          obtain ⟨bs, hb⟩ := IH c _ h2 q hcmem hrec
          exact ⟨(nm, seg) :: bs, Matches.paramChild c hcmem hap (hm.1 ▸ hb)⟩
        | none =>
          dsimp only at hm
          exact ih hsub' seg (delAssoc q nm) h p hm
    | none =>
      rw [hap] at hm
      dsimp only at hm
      exact ih hsub' seg params h p hm

theorem tryWildL_sound (m : String) (fuel : Nat) (tail : List String) (n : RadixNode)
    (IH : ∀ c params h p, c ∈ n.children →
      matchRouteF m fuel c tail params = (some h, p) → ∃ bs, Matches c tail m h bs) :
    ∀ (cs : List RadixNode), (∀ c ∈ cs, c ∈ n.children) →
      ∀ (seg : String) (params : Params) (h : Nat) (p : Params),
        tryWildL (fun c q => matchRouteF m fuel c tail q) cs params = (some h, p) →
        ∃ bs, Matches n (seg :: tail) m h bs := by
  intro cs
  induction cs with
  | nil => intro _ seg params h p hm; simp [tryWildL] at hm
  | cons c rest ih =>
    intro hsub seg params h p hm
    have hsub' : ∀ d ∈ rest, d ∈ n.children := fun d hd => hsub d (List.mem_cons_of_mem _ hd)
    have hcmem : c ∈ n.children := hsub c (List.mem_cons_self _ _)
    simp only [tryWildL] at hm
    by_cases hw : c.isWildcard = true
    · rw [if_pos hw] at hm
      cases hrec : matchRouteF m fuel c tail params with
      | mk r q =>
        rw [hrec] at hm
        cases r with
        | some h2 =>
          simp only [Prod.mk.injEq, Option.some.injEq] at hm
          obtain ⟨bs, hb⟩ := IH c params h2 q hcmem hrec
          exact ⟨bs, Matches.wildChild c hcmem hw (hm.1 ▸ hb)⟩
        | none =>
          exact ih hsub' seg q h p hm
    · rw [if_neg hw] at hm
      exact ih hsub' seg params h p hm

/-- Soundness of the radix walk: a successful `matchRouteF` exhibits a `Matches`
derivation. -/
theorem matchRouteF_sound (m : String) :
    ∀ (fuel : Nat) (n : RadixNode) (rest : List String) (params : Params) (h : Nat) (p : Params),
      matchRouteF m fuel n rest params = (some h, p) → ∃ bs, Matches n rest m h bs := by
  intro fuel
  induction fuel with
  | zero => intro n rest params h p hm; simp [matchRouteF] at hm
  | succ f ih =>
    intro n rest params h p hm
    cases rest with
    | nil =>
      simp only [matchRouteF, Prod.mk.injEq] at hm
      exact ⟨[], Matches.done hm.1⟩
    | cons seg tail =>
      have IH : ∀ c params h p, c ∈ n.children →
          matchRouteF m f c tail params = (some h, p) → ∃ bs, Matches c tail m h bs :=
        fun c params h p _ hrec => ih c tail params h p hrec
      simp only [matchRouteF] at hm
      cases hs : tryStaticL (fun c q => matchRouteF m f c tail q) n.children seg params with
      | mk r1 p1 =>
        rw [hs] at hm
        cases r1 with
        | some h1 =>
          simp only [Prod.mk.injEq, Option.some.injEq] at hm
          exact hm.1 ▸ tryStaticL_sound m f tail n IH n.children (fun c hc => hc) seg params h1 p1 hs
        | none =>
          dsimp only at hm
          cases hp : tryParamL (fun c q => matchRouteF m f c tail q) n.children seg p1 with
          | mk r2 p2 =>
            rw [hp] at hm
            cases r2 with
            | some h2 =>
              simp only [Prod.mk.injEq, Option.some.injEq] at hm
              exact hm.1 ▸ tryParamL_sound m f tail n IH n.children (fun c hc => hc) seg p1 h2 p2 hp
            | none =>
              dsimp only at hm
              cases hw : tryWildL (fun c q => matchRouteF m f c tail q) n.children p2 with
              | mk r3 p3 =>
                rw [hw] at hm
                cases r3 with
                | some h3 =>
                  simp only [Prod.mk.injEq, Option.some.injEq] at hm
                  exact hm.1 ▸ tryWildL_sound m f tail n IH n.children (fun c hc => hc) seg p2 h3 p3 hw
                | none =>
                  dsimp only at hm
                  obtain ⟨c, hc, h1, h2⟩ := tryCatchL_sound m n.children p3 h p hm
                  exact ⟨[], Matches.catchAllChild c hc h1 h2⟩

/-! ## From tree matches back to registered routes (claim C3) -/

/-- Well-formedness: every node's stored classification agrees with the
node-creation rule of `insertRoute` applied to its `pattern`. -/
inductive WFNode : RadixNode → Prop where
  | mk {pat : String} {hs : List (String × Nat)} {cs : List RadixNode}
      {pn : Option String} {w ca : Bool} :
      pn = (if strStartsWithChar pat ':' then some (strDropFirst pat) else none) →
      w = (pat == "*") → ca = (pat == "**") →
      (∀ c ∈ cs, WFNode c) →
      WFNode (.node pat hs cs pn w ca)

theorem WFNode.children_wf {n : RadixNode} (hwf : WFNode n) :
    ∀ c ∈ n.children, WFNode c := by
  cases hwf with
  | mk _ _ _ hcs => exact hcs

theorem WFNode.param_starts {n : RadixNode} (hwf : WFNode n) {nm : String}
    (hap : activeParam n = some nm) : strStartsWithChar n.pattern ':' = true := by
  cases n with
  | node pat hs cs pn w ca =>
    cases hwf with
    | mk hpn hw hca hcs =>
      simp only [activeParam, RadixNode.paramName] at hap
      simp only [RadixNode.pattern]
      by_cases hst : strStartsWithChar pat ':' = true
      · exact hst
      · rw [hpn] at hap
        simp [hst] at hap

theorem WFNode.wild_pattern {n : RadixNode} (hwf : WFNode n)
    (hw : n.isWildcard = true) : n.pattern = "*" := by
  cases n with
  | node pat hs cs pn w ca =>
    cases hwf with
    | mk hpn hww hca hcs =>
      simp only [RadixNode.isWildcard] at hw
      rw [hww] at hw
      simpa [RadixNode.pattern] using hw

theorem WFNode.catchAll_pattern {n : RadixNode} (hwf : WFNode n)
    (hw : n.isCatchAll = true) : n.pattern = "**" := by
  cases n with
  | node pat hs cs pn w ca =>
    cases hwf with
    | mk hpn hww hca hcs =>
      simp only [RadixNode.isCatchAll] at hw
      rw [hca] at hw
      simpa [RadixNode.pattern] using hw

theorem wf_newRadixNode (p : String) : WFNode (newRadixNode p) := by
  refine WFNode.mk rfl rfl rfl ?_
  intro c hc
  cases hc

theorem wf_setHandlersNode {n : RadixNode} (hwf : WFNode n) (m : String) (h : Nat) :
    WFNode (setHandlersNode n m h) := by
  cases n with
  | node pat hs cs pn w ca =>
    cases hwf with
    | mk hpn hw hca hcs => exact WFNode.mk hpn hw hca hcs

theorem wf_insertParts {parts : List String} :
    ∀ {n : RadixNode}, WFNode n → ∀ {m : String} {h : Nat}, WFNode (insertParts n parts m h) := by
  induction parts with
  | nil =>
    intro n hwf m h
    cases n with
    | node pat hs cs pn w ca => exact wf_setHandlersNode hwf m h
  | cons p rest ih =>
    intro n hwf m h
    cases n with
    | node pat hs cs pn w ca =>
      cases hwf with
      | mk hpn hw hca hcs =>
        simp only [insertParts]
        cases hsp : splitFirst cs p with
        | some trip =>
          obtain ⟨pre, c, post⟩ := trip
          obtain ⟨heq, hpat⟩ := splitFirst_eq hsp
          refine WFNode.mk hpn hw hca ?_
          intro d hd
          rcases List.mem_append.mp hd with hd | hd
          · exact hcs d (heq ▸ List.mem_append_left _ hd)
          · rcases List.mem_cons.mp hd with hd | hd
            · subst hd
              exact ih (hcs c (heq ▸ List.mem_append_right _ (List.mem_cons_self _ _)))
            · exact hcs d (heq ▸ List.mem_append_right _ (List.mem_cons_of_mem _ hd))
        | none =>
          refine WFNode.mk hpn hw hca ?_
          intro d hd
          rcases List.mem_append.mp hd with hd | hd
          · exact hcs d hd
          · rcases List.mem_cons.mp hd with hd | hd
            · subst hd
              exact ih (wf_newRadixNode p)
            · cases hd
  

theorem wf_emptyRoot : WFNode emptyRoot := by
  refine WFNode.mk ?_ ?_ ?_ ?_ <;> first
    | rfl
    | (intro c hc; cases hc)

theorem wf_foldl_insert (routes : List RouteEntry) (st : PrinceState) :
    ∀ (n : RadixNode), WFNode n →
      WFNode (routes.foldl
        (fun root r =>
          if (getAssoc st.staticRoutes (r.method, r.path)).isSome then root
          else insertParts root r.parts r.method r.handler) n) := by
  induction routes with
  | nil => intro n h; exact h
  | cons r rest ih =>
    intro n h
    simp only [List.foldl_cons]
    apply ih
    by_cases hs : (getAssoc st.staticRoutes (r.method, r.path)).isSome
    · simpa [hs] using h
    · simpa [hs] using wf_insertParts h

theorem wf_buildRouter (st : PrinceState) : WFNode (buildRouter st) :=
  wf_foldl_insert st.rawRoutes st emptyRoot wf_emptyRoot

theorem insertParts_pattern (n : RadixNode) (parts : List String) (m : String) (h : Nat) :
    (insertParts n parts m h).pattern = n.pattern := by
  cases parts with
  | nil => cases n; rfl
  | cons p rest =>
    cases n with
    | node pat hs cs pn w ca =>
      simp only [insertParts]
      cases hsp : splitFirst cs p with
      | some trip => obtain ⟨pre, c, post⟩ := trip; rfl
      | none => rfl

/-- A handler for `m` is reachable from `n` along the child-pattern word `ps`. -/
inductive TreeEntry : RadixNode → List String → String → Prop where
  | here {n : RadixNode} {m : String} :
      (getAssoc n.handlers m).isSome = true → TreeEntry n [] m
  | child {n : RadixNode} {ps : List String} {m : String} (c : RadixNode) :
      c ∈ n.children → TreeEntry c ps m → TreeEntry n (c.pattern :: ps) m

theorem treeEntry_newRadixNode {p : String} {ps : List String} {m : String} :
    ¬ TreeEntry (newRadixNode p) ps m := by
  intro h
  cases h with
  | here hh => simp [newRadixNode, RadixNode.handlers, getAssoc] at hh
  | child c hc _ => simp [newRadixNode, RadixNode.children] at hc

theorem treeEntry_insert {m' : String} {hdl : Nat} :
    ∀ {parts : List String} {n : RadixNode} {ps : List String} {m : String},
      TreeEntry (insertParts n parts m' hdl) ps m →
      TreeEntry n ps m ∨ (ps = parts ∧ m = m') := by
  intro parts
  induction parts with
  | nil =>
    intro n ps m hte
    cases n with
    | node pat hs cs pn w ca =>
      cases hte with
      | here hh =>
        rw [show (insertParts (.node pat hs cs pn w ca) [] m' hdl).handlers
              = setAssoc hs m' hdl from rfl] at hh
        by_cases hm : m = m'
        · exact Or.inr ⟨rfl, hm⟩
        · rw [getAssoc_setAssoc, if_neg hm] at hh
          exact Or.inl (TreeEntry.here hh)
      | child c hc hsub =>
        exact Or.inl (TreeEntry.child c hc hsub)
  | cons p rest ih =>
    intro n ps m hte
    cases n with
    | node pat hs cs pn w ca =>
      simp only [insertParts] at hte
      cases hsp : splitFirst cs p with
      | some trip =>
        obtain ⟨pre, c, post⟩ := trip
        rw [hsp] at hte
        dsimp only at hte
        obtain ⟨heq, hpat⟩ := splitFirst_eq hsp
        cases hte with
        | here hh => exact Or.inl (TreeEntry.here hh)
        | child c2 hc hsub =>
          rcases List.mem_append.mp hc with hmem | hmem
          · refine Or.inl (TreeEntry.child c2 ?_ hsub)
            rw [show (RadixNode.node pat hs cs pn w ca).children = cs from rfl, heq]
            exact List.mem_append_left _ hmem
          · rcases List.mem_cons.mp hmem with hmem2 | hmem2
            · subst hmem2
              rw [insertParts_pattern]
              rcases ih hsub with hold | ⟨hps, hmm⟩
              · refine Or.inl (TreeEntry.child c ?_ hold)
                rw [show (RadixNode.node pat hs cs pn w ca).children = cs from rfl, heq]
                exact List.mem_append_right _ (List.mem_cons_self _ _)
              · exact Or.inr ⟨by rw [hpat, hps], hmm⟩
            · refine Or.inl (TreeEntry.child c2 ?_ hsub)
              rw [show (RadixNode.node pat hs cs pn w ca).children = cs from rfl, heq]
              exact List.mem_append_right _ (List.mem_cons_of_mem _ hmem2)
      | none =>
        rw [hsp] at hte
        dsimp only at hte
        cases hte with
        | here hh => exact Or.inl (TreeEntry.here hh)
        | child c2 hc hsub =>
          rcases List.mem_append.mp hc with hmem | hmem
          · exact Or.inl (TreeEntry.child c2 hmem hsub)
          · rcases List.mem_cons.mp hmem with hmem2 | hmem2
            · subst hmem2
              rcases ih hsub with hold | ⟨hps, hmm⟩
              · exact absurd hold treeEntry_newRadixNode
              · refine Or.inr ⟨?_, hmm⟩
                rw [insertParts_pattern, hps]
                rfl
            · cases hmem2

theorem treeEntry_foldl (st : PrinceState) :
    ∀ (routes : List RouteEntry) (n : RadixNode) {ps : List String} {m : String},
      TreeEntry (routes.foldl
        (fun root r =>
          if (getAssoc st.staticRoutes (r.method, r.path)).isSome then root
          else insertParts root r.parts r.method r.handler) n) ps m →
      TreeEntry n ps m ∨ ∃ r ∈ routes, r.parts = ps ∧ r.method = m := by
  intro routes
  induction routes with
  | nil => intro n ps m h; exact Or.inl h
  | cons r rest ih =>
    intro n ps m h
    simp only [List.foldl_cons] at h
    rcases ih _ h with hstep | ⟨q, hq, h1, h2⟩
    · by_cases hs : (getAssoc st.staticRoutes (r.method, r.path)).isSome
      · rw [if_pos hs] at hstep
        exact Or.inl hstep
      · rw [if_neg hs] at hstep
        rcases treeEntry_insert hstep with hold | ⟨hps, hmm⟩
        · exact Or.inl hold
        · exact Or.inr ⟨r, List.mem_cons_self _ _, hps.symm, hmm.symm⟩
    · exact Or.inr ⟨q, List.mem_cons_of_mem _ hq, h1, h2⟩

theorem treeEntry_emptyRoot {ps : List String} {m : String} :
    ¬ TreeEntry emptyRoot ps m := by
  intro h
  cases h with
  | here hh => simp [emptyRoot, RadixNode.handlers, getAssoc] at hh
  | child c hc _ => simp [emptyRoot, RadixNode.children] at hc

/-- A reachable handler in the built router names a registered dynamic route. -/
theorem treeEntry_buildRouter (st : PrinceState) {ps : List String} {m : String}
    (h : TreeEntry (buildRouter st) ps m) :
    ∃ r ∈ st.rawRoutes, r.parts = ps ∧ r.method = m := by
  rcases treeEntry_foldl st st.rawRoutes emptyRoot h with habs | hgood
  · exact absurd habs treeEntry_emptyRoot
  · exact hgood

/-- The body of `matchPath` on pre-split segment lists. -/
def matchPathParts (rp qp : List String) : Bool :=
  if rp.length ≠ qp.length then rp.contains "**" else partsPairwise rp qp

theorem matchPath_eq (p q : String) :
    matchPath p q = matchPathParts (pathParts p) (pathParts q) := rfl

theorem matchPathParts_cons {r q : String} {rp qp : List String}
    (hhead : strStartsWithChar r ':' = true ∨ r = "*" ∨ r = "**" ∨ r = q)
    (htail : matchPathParts rp qp = true) :
    matchPathParts (r :: rp) (q :: qp) = true := by
  unfold matchPathParts at htail ⊢
  by_cases hl : rp.length = qp.length
  · rw [if_neg (by simp [hl])] at htail
    rw [if_neg (by simp [hl])]
    rcases hhead with h | h | h | h <;> simp [partsPairwise, htail, h]
  · rw [if_pos (by simp [hl])] at htail
    rw [if_pos (by simp [hl])]
    simp only [List.contains_cons, htail, Bool.or_true]

theorem matchPathParts_catchAll (q : String) (qs : List String) :
    matchPathParts ["**"] (q :: qs) = true := by
  cases qs with
  | nil => simp [matchPathParts, partsPairwise]
  | cons a as => simp [matchPathParts]

/-- Every successful `Matches` derivation from a well-formed node corresponds to a
reachable handler entry whose pattern word `matchPath`-accepts the consumed
segments. -/
theorem matches_to_matchPathParts {n : RadixNode} {rest : List String} {m : String}
    {h : Nat} {bs : Params} (hm : Matches n rest m h bs) :
    WFNode n → ∃ ps, TreeEntry n ps m ∧ matchPathParts ps rest = true := by
  induction hm with
  | done hh =>
    intro hwf
    exact ⟨[], TreeEntry.here (by simp [hh]), by simp [matchPathParts, partsPairwise]⟩
  | staticChild c hc hstat hpat hsub ih =>
    intro hwf
    obtain ⟨ps, hentry, hmp⟩ := ih (hwf.children_wf c hc)
    exact ⟨c.pattern :: ps, TreeEntry.child c hc hentry,
      matchPathParts_cons (Or.inr (Or.inr (Or.inr hpat))) hmp⟩
  | paramChild c hc hap hsub ih =>
    intro hwf
    obtain ⟨ps, hentry, hmp⟩ := ih (hwf.children_wf c hc)
    exact ⟨c.pattern :: ps, TreeEntry.child c hc hentry,
      matchPathParts_cons (Or.inl ((hwf.children_wf c hc).param_starts hap)) hmp⟩
  | wildChild c hc hw hsub ih =>
    intro hwf
    obtain ⟨ps, hentry, hmp⟩ := ih (hwf.children_wf c hc)
    exact ⟨c.pattern :: ps, TreeEntry.child c hc hentry,
      matchPathParts_cons (Or.inr (Or.inl ((hwf.children_wf c hc).wild_pattern hw))) hmp⟩
  | catchAllChild c hc hca hh =>
    intro hwf
    refine ⟨c.pattern :: [], TreeEntry.child c hc (TreeEntry.here (by simp [hh])), ?_⟩
    rw [(hwf.children_wf c hc).catchAll_pattern hca]
    exact matchPathParts_catchAll _ _

theorem addRoute_rawRoutes (st : PrinceState) (m p : String) (hdl : Nat) :
    (addRoute st m p hdl).rawRoutes
      = st.rawRoutes ++ [⟨m, normalizePath p, pathParts (normalizePath p), hdl⟩] := by
  unfold addRoute
  by_cases hs : isStaticParts (pathParts (normalizePath p)) = true <;> simp [hs]

theorem registerAll_rawRoutes_aux :
    ∀ (regs : List (String × String × Nat)) (st : PrinceState),
      (regs.foldl (fun st r => addRoute st r.1 r.2.1 r.2.2) st).rawRoutes
        = st.rawRoutes ++ regs.map
            (fun g => ⟨g.1, normalizePath g.2.1, pathParts (normalizePath g.2.1), g.2.2⟩) := by
  intro regs
  induction regs with
  | nil => intro st; simp
  | cons g rest ih =>
    intro st
    simp only [List.foldl_cons, List.map_cons]
    rw [ih, addRoute_rawRoutes]
    simp

/-- The raw route list of a registered router, entry by entry. -/
theorem registerAll_rawRoutes (regs : List (String × String × Nat)) :
    (registerAll regs).rawRoutes
      = regs.map (fun g => ⟨g.1, normalizePath g.2.1, pathParts (normalizePath g.2.1), g.2.2⟩) := by
  unfold registerAll
  rw [registerAll_rawRoutes_aux]
  rfl

theorem rawRoutes_parts (regs : List (String × String × Nat)) :
    ∀ r ∈ (registerAll regs).rawRoutes, r.parts = pathParts r.path := by
  intro r hr
  rw [registerAll_rawRoutes] at hr
  obtain ⟨g, _, hg⟩ := List.mem_map.mp hr
  rw [← hg]

theorem mem_allowedFor_foldl (pathname : String) :
    ∀ (routes : List RouteEntry) (acc : List String) (x : String),
      x ∈ routes.foldl
        (fun acc r =>
          if matchPath r.path pathname then
            (if acc.contains r.method then acc else acc ++ [r.method])
          else acc) acc ↔
      x ∈ acc ∨ ∃ r ∈ routes, matchPath r.path pathname = true ∧ r.method = x := by
  intro routes
  induction routes with
  | nil => intro acc x; simp
  | cons r rest ih =>
    intro acc x
    simp only [List.foldl_cons]
    rw [ih]
    by_cases hmp : matchPath r.path pathname = true
    · by_cases hc : acc.contains r.method = true
      · simp only [hmp, if_true, hc]
        constructor
        · rintro (hx | hx)
          · exact Or.inl hx
          · exact Or.inr (by obtain ⟨q, hq, h1, h2⟩ := hx; exact ⟨q, List.mem_cons_of_mem _ hq, h1, h2⟩)
        · rintro (hx | ⟨q, hq, h1, h2⟩)
          · exact Or.inl hx
          · rcases List.mem_cons.mp hq with hq2 | hq2
            · subst hq2
              have hmem : q.method ∈ acc := by simpa using hc
              exact Or.inl (h2 ▸ hmem)
            · exact Or.inr ⟨q, hq2, h1, h2⟩
      · simp only [hmp, if_true, hc, if_false]
        constructor
        · rintro (hx | hx)
          · rcases List.mem_append.mp hx with hx2 | hx2
            · exact Or.inl hx2
            · exact Or.inr ⟨r, List.mem_cons_self _ _, hmp, (List.mem_singleton.mp hx2).symm⟩
          · exact Or.inr (by obtain ⟨q, hq, h1, h2⟩ := hx; exact ⟨q, List.mem_cons_of_mem _ hq, h1, h2⟩)
        · rintro (hx | ⟨q, hq, h1, h2⟩)
          · exact Or.inl (List.mem_append_left _ hx)
          · rcases List.mem_cons.mp hq with hq2 | hq2
            · subst hq2
              exact Or.inl (List.mem_append_right _ (by simp [h2]))
            · exact Or.inr ⟨q, hq2, h1, h2⟩
    · simp only [hmp, if_false]
      constructor
      · rintro (hx | hx)
        · exact Or.inl hx
        · exact Or.inr (by obtain ⟨q, hq, h1, h2⟩ := hx; exact ⟨q, List.mem_cons_of_mem _ hq, h1, h2⟩)
      · rintro (hx | ⟨q, hq, h1, h2⟩)
        · exact Or.inl hx
        · rcases List.mem_cons.mp hq with hq2 | hq2
          · subst hq2; exact absurd h1 hmp
          · exact Or.inr ⟨q, hq2, h1, h2⟩

/-- Membership in the `Allow` list: exactly the methods of the `matchPath`-matching
registered routes. -/
theorem mem_allowedFor (st : PrinceState) (pathname x : String) :
    x ∈ allowedFor st pathname ↔
      ∃ r ∈ st.rawRoutes, matchPath r.path pathname = true ∧ r.method = x := by
  unfold allowedFor
  rw [mem_allowedFor_foldl]
  simp

theorem nodup_allowedFor_foldl (pathname : String) :
    ∀ (routes : List RouteEntry) (acc : List String), acc.Nodup →
      (routes.foldl
        (fun acc r =>
          if matchPath r.path pathname then
            (if acc.contains r.method then acc else acc ++ [r.method])
          else acc) acc).Nodup := by
  intro routes
  induction routes with
  | nil => intro acc h; exact h
  | cons r rest ih =>
    intro acc h
    simp only [List.foldl_cons]
    apply ih
    by_cases hmp : matchPath r.path pathname = true
    · by_cases hc : acc.contains r.method = true
      · have hmem : r.method ∈ acc := by simpa using hc
        simpa [hmp, hc, hmem] using h
      · have hnot : r.method ∉ acc := fun hmem => hc (by simpa using hmem)
        simp [hmp, hc, List.nodup_append, h, hnot]
    · simpa [hmp] using h

/-- The `Allow` list never repeats a method. -/
theorem nodup_allowedFor (st : PrinceState) (pathname : String) :
    (allowedFor st pathname).Nodup :=
  nodup_allowedFor_foldl pathname st.rawRoutes [] List.nodup_nil

/-- C3: for a request whose path `matchPath`-matches at least one registered pattern
while no matching pattern was registered for its method, `findRoute` returns the
method-not-allowed marker and the dispatcher produces a 405 response with body
`{"error":"Method Not Allowed"}` whose `Allow` header joins `allowedFor` — a list
containing exactly the methods registered for patterns matching that path (membership
iff, third conjunct) with no duplicates (fourth conjunct).  The static fast path
cannot fire (a static hit would name a matching route with this method), and the
radix walk cannot succeed: a successful walk is sound for `Matches`, every match in
the built tree corresponds to a registered route whose pattern `matchPath`-accepts
the request path, and such a route's method would contradict the hypothesis. -/
theorem c3_method_not_allowed (regs : List (String × String × Nat)) (m pathname : String)
    (hex : ∃ r ∈ (registerAll regs).rawRoutes, matchPath r.path pathname = true)
    (hnom : ∀ r ∈ (registerAll regs).rawRoutes, matchPath r.path pathname = true → r.method ≠ m) :
    findRoute (registerAll regs) m pathname
      = some ⟨none, [], some (allowedFor (registerAll regs) pathname)⟩ ∧
    handleFetch (registerAll regs) m pathname
      = .response ⟨405,
          [("Allow", joinSep ", " (allowedFor (registerAll regs) pathname)),
           ("Content-Type", "application/json")], mnaBody⟩ ∧
    (∀ x, x ∈ allowedFor (registerAll regs) pathname ↔
      ∃ r ∈ (registerAll regs).rawRoutes, matchPath r.path pathname = true ∧ r.method = x) ∧
    (allowedFor (registerAll regs) pathname).Nodup := by
  have hstatic : getAssoc (registerAll regs).staticRoutes (m, pathname) = none := by
    cases hget : getAssoc (registerAll regs).staticRoutes (m, pathname) with
    | none => rfl
    | some h =>
      obtain ⟨r, hr, hrm, hrp⟩ := staticInv_registerAll regs m pathname h hget
      exact absurd hrm (hnom r hr (by rw [hrp]; exact matchPath_self pathname))
  have hpe : pathExistsB (registerAll regs) pathname = true := by
    obtain ⟨r, hr, hmp⟩ := hex
    unfold pathExistsB
    rw [List.any_eq_true]
    exact ⟨r, hr, by simp [hmp]⟩
  have htree : ∀ h p,
      matchRoute (buildRouter (registerAll regs)) (pathParts pathname) m [] ≠ (some h, p) := by
    intro h p hcontra
    unfold matchRoute at hcontra
    obtain ⟨bs, hmatches⟩ := matchRouteF_sound m _ _ _ _ h p hcontra
    obtain ⟨ps, hentry, hmp⟩ :=
      matches_to_matchPathParts hmatches (wf_buildRouter (registerAll regs))
    obtain ⟨r, hr, hparts, hmethod⟩ := treeEntry_buildRouter (registerAll regs) hentry
    have hparts2 : r.parts = pathParts r.path := rawRoutes_parts regs r hr
    have hmtch : matchPath r.path pathname = true := by
      rw [matchPath_eq, ← hparts2, hparts]
      exact hmp
    exact hnom r hr hmtch hmethod
  have hfind : findRoute (registerAll regs) m pathname
      = some ⟨none, [], some (allowedFor (registerAll regs) pathname)⟩ := by
    unfold findRoute
    rw [hstatic]
    dsimp only
    rw [if_neg (by simp [hpe])]
    cases hmr : matchRoute (buildRouter (registerAll regs)) (pathParts pathname) m [] with
    | mk r p =>
      cases r with
      | some h => exact absurd hmr (htree h p)
      | none => rfl
  refine ⟨hfind, ?_, fun x => mem_allowedFor (registerAll regs) pathname x,
    nodup_allowedFor (registerAll regs) pathname⟩
  unfold handleFetch
  rw [hfind]
  rfl

/-- C3 witness: routes `GET /a`, `POST /a`, `GET /b`; the request `PUT /a` matches the
path but no method, so the response is 405 with `Allow: GET, POST` — exactly the
methods registered for `/a`, without duplicates. -/
theorem c3_method_not_allowed_witness :
    findRoute (registerAll [("GET", "/a", 1), ("POST", "/a", 2), ("GET", "/b", 3)]) "PUT" "/a"
      = some ⟨none, [],
          some (allowedFor (registerAll [("GET", "/a", 1), ("POST", "/a", 2), ("GET", "/b", 3)]) "/a")⟩ ∧
    handleFetch (registerAll [("GET", "/a", 1), ("POST", "/a", 2), ("GET", "/b", 3)]) "PUT" "/a"
      = .response ⟨405,
          [("Allow", joinSep ", "
              (allowedFor (registerAll [("GET", "/a", 1), ("POST", "/a", 2), ("GET", "/b", 3)]) "/a")),
           ("Content-Type", "application/json")], mnaBody⟩ ∧
    (∀ x, x ∈ allowedFor (registerAll [("GET", "/a", 1), ("POST", "/a", 2), ("GET", "/b", 3)]) "/a" ↔
      ∃ r ∈ (registerAll [("GET", "/a", 1), ("POST", "/a", 2), ("GET", "/b", 3)]).rawRoutes,
        matchPath r.path "/a" = true ∧ r.method = x) ∧
    (allowedFor (registerAll [("GET", "/a", 1), ("POST", "/a", 2), ("GET", "/b", 3)]) "/a").Nodup :=
  c3_method_not_allowed [("GET", "/a", 1), ("POST", "/a", 2), ("GET", "/b", 3)] "PUT" "/a"
    (by decide) (by decide)

/-- Param names declared by the parts of one route pattern. -/
def partParamNames (parts : List String) : List String :=
  (parts.filter (fun p => strStartsWithChar p ':')).map strDropFirst

/-- Param names declared by a list of registrations, in order. -/
def regsParamNames : List (String × String × Nat) → List String
  | [] => []
  | g :: t => partParamNames (pathParts (normalizePath g.2.1)) ++ regsParamNames t

/-- Param names declared by a list of raw routes, in order. -/
def rawParamNames : List RouteEntry → List String
  | [] => []
  | r :: t => partParamNames r.parts ++ rawParamNames t

theorem treeNames_insert_count (parts : List String) :
    ∀ (n : RadixNode) (m : String) (h : Nat) (a : String),
      (treeNames (insertParts n parts m h)).count a
        ≤ (treeNames n).count a + (partParamNames parts).count a := by
  induction parts with
  | nil =>
    intro n m h a
    cases n with
    | node pat hs cs pn w ca =>
      rw [show insertParts (.node pat hs cs pn w ca) [] m h
            = setHandlersNode (.node pat hs cs pn w ca) m h from rfl]
      simp [treeNames_setHandlersNode, partParamNames]
  | cons p rest ih =>
    intro n m h a
    cases n with
    | node pat hs cs pn w ca =>
      simp only [insertParts]
      cases hsp : splitFirst cs p with
      | some trip =>
        obtain ⟨pre, c, post⟩ := trip
        obtain ⟨heq, hpat⟩ := splitFirst_eq hsp
        subst heq
        have hIH := ih c m h a
        have hmono : (partParamNames rest).count a ≤ (partParamNames (p :: rest)).count a := by
          simp only [partParamNames, List.filter_cons]
          by_cases hp : strStartsWithChar p ':' = true
          · simp [hp, List.count_cons]
          · simp [hp]
        simp only [treeNames, treeNamesL_append, treeNamesL, List.count_append,
          List.count_nil] at *
        omega
      | none =>
        have hIH := ih (newRadixNode p) m h a
        have hsplit : (partParamNames (p :: rest)).count a
            = (treeNames (newRadixNode p)).count a + (partParamNames rest).count a := by
          simp only [partParamNames, newRadixNode, treeNames, treeNamesL, List.filter_cons]
          by_cases hp : strStartsWithChar p ':' = true
          · simp [hp, List.count_cons]
            omega
          · simp [hp]
        simp only [treeNames, treeNamesL_append, treeNamesL, List.count_append,
          List.count_nil] at *
        omega

theorem treeNames_foldl_count (st : PrinceState) :
    ∀ (routes : List RouteEntry) (n : RadixNode) (a : String),
      (treeNames (routes.foldl
        (fun root r =>
          if (getAssoc st.staticRoutes (r.method, r.path)).isSome then root
          else insertParts root r.parts r.method r.handler) n)).count a
        ≤ (treeNames n).count a + (rawParamNames routes).count a := by
  intro routes
  induction routes with
  | nil => intro n a; simp [rawParamNames]
  | cons r rest ih =>
    intro n a
    simp only [List.foldl_cons]
    by_cases hs : (getAssoc st.staticRoutes (r.method, r.path)).isSome
    · rw [if_pos hs]
      have := ih n a
      simp only [rawParamNames, List.count_append] at *
      omega
    · rw [if_neg hs]
      have h1 := ih (insertParts n r.parts r.method r.handler) a
      have h2 := treeNames_insert_count r.parts n r.method r.handler a
      simp only [rawParamNames, List.count_append] at *
      omega

theorem rawParamNames_registerAll (regs : List (String × String × Nat)) :
    rawParamNames (registerAll regs).rawRoutes = regsParamNames regs := by
  rw [registerAll_rawRoutes]
  induction regs with
  | nil => rfl
  | cons g t ih => simp only [List.map_cons, rawParamNames, regsParamNames, ih]

theorem treeNames_emptyRoot : treeNames emptyRoot = [] := by
  simp [emptyRoot, treeNames, treeNamesL]

/-- Distinct param names across the registrations give a duplicate-free name list for
the whole built tree. -/
theorem buildRouter_names_nodup (regs : List (String × String × Nat))
    (hn : (regsParamNames regs).Nodup) :
    (treeNames (buildRouter (registerAll regs))).Nodup := by
  rw [List.nodup_iff_count_le_one] at hn ⊢
  intro a
  have h1 := treeNames_foldl_count (registerAll regs) (registerAll regs).rawRoutes emptyRoot a
  rw [treeNames_emptyRoot, rawParamNames_registerAll] at h1
  have h2 := hn a
  simp only [List.count_nil] at h1
  unfold buildRouter
  omega

theorem activeParam_paramName {c : RadixNode} {nm : String}
    (h : activeParam c = some nm) : c.paramName = some nm := by
  unfold activeParam at h
  cases hpn : c.paramName with
  | none => rw [hpn] at h; simp at h
  | some n =>
    rw [hpn] at h
    dsimp only at h
    by_cases hn : (n == "") = true
    · rw [if_pos hn] at h; simp at h
    · rw [if_neg hn] at h; simpa using h

theorem treeNames_of_activeParam {c : RadixNode} {nm : String}
    (h : activeParam c = some nm) : treeNames c = nm :: treeNamesL c.children := by
  have hpn := activeParam_paramName h
  cases c with
  | node pat hs cs pn w ca =>
    simp only [RadixNode.paramName] at hpn
    subst hpn
    simp [treeNames, RadixNode.children]

theorem childChildren_sub_treeNames (c : RadixNode) :
    List.Sublist (treeNamesL c.children) (treeNames c) := by
  cases c with
  | node pat hs cs pn w ca =>
    simp only [treeNames, RadixNode.children]
    exact List.sublist_append_right _ _

theorem child_names_nodup {n c : RadixNode} (hc : c ∈ n.children)
    (hn : (treeNamesL n.children).Nodup) : (treeNames c).Nodup :=
  hn.sublist (treeNames_sublist_of_mem hc)

theorem child_names_mem {n c : RadixNode} (hc : c ∈ n.children) {x : String}
    (hx : x ∈ treeNames c) : x ∈ treeNamesL n.children :=
  (treeNames_sublist_of_mem hc).subset hx

theorem tryCatchL_exact (m : String) :
    ∀ (cs : List RadixNode) (params : Params),
      (∀ p, tryCatchL m cs params = (none, p) → p = params) ∧
      (∀ h p, tryCatchL m cs params = (some h, p) → p = params) := by
  intro cs
  induction cs with
  | nil =>
    intro params
    constructor
    · intro p hm
      simp only [tryCatchL, Prod.mk.injEq] at hm
      exact hm.2.symm
    · intro h p hm
      simp only [tryCatchL, Prod.mk.injEq] at hm
      exact absurd hm.1 (by simp)
  | cons c rest ih =>
    intro params
    simp only [tryCatchL]
    by_cases hca : c.isCatchAll = true
    · rw [if_pos hca]
      cases hh : getAssoc c.handlers m with
      | some h2 =>
        constructor
        · intro p hm
          dsimp only at hm
          simp at hm
        · intro h p hm
          dsimp only at hm
          simp only [Prod.mk.injEq, Option.some.injEq] at hm
          exact hm.2.symm
      | none =>
        dsimp only
        exact ih params
    · rw [if_neg hca]
      exact ih params

theorem tryStaticL_exact (m : String) (fuel : Nat) (tail : List String) (n : RadixNode)
    (IHfuel : ∀ (c : RadixNode) (params' : Params),
      (treeNamesL c.children).Nodup →
      (∀ x ∈ treeNamesL c.children, getAssoc params' x = none) →
      (∀ p, matchRouteF m fuel c tail params' = (none, p) → p = params') ∧
      (∀ h p, matchRouteF m fuel c tail params' = (some h, p) →
        ∃ bs, Matches c tail m h bs ∧ p = params' ++ bs))
    (hnodup : (treeNamesL n.children).Nodup) :
    ∀ (cs : List RadixNode), (∀ c ∈ cs, c ∈ n.children) →
      ∀ (seg : String) (params : Params),
        (∀ x ∈ treeNamesL n.children, getAssoc params x = none) →
        (∀ p, tryStaticL (fun c q => matchRouteF m fuel c tail q) cs seg params = (none, p) →
          p = params) ∧
        (∀ h p, tryStaticL (fun c q => matchRouteF m fuel c tail q) cs seg params = (some h, p) →
          ∃ bs, Matches n (seg :: tail) m h bs ∧ p = params ++ bs) := by
  intro cs
  induction cs with
  | nil =>
    intro _ seg params _
    constructor
    · intro p hm
      simp only [tryStaticL, Prod.mk.injEq] at hm
      exact hm.2.symm
    · intro h p hm
      simp only [tryStaticL, Prod.mk.injEq] at hm
      exact absurd hm.1 (by simp)
  | cons c rest ih =>
    intro hsub seg params hdisj
    have hcn : c ∈ n.children := hsub c (List.mem_cons_self _ _)
    have hsub' : ∀ d ∈ rest, d ∈ n.children := fun d hd => hsub d (List.mem_cons_of_mem _ hd)
    have cnodup : (treeNamesL c.children).Nodup :=
      (child_names_nodup hcn hnodup).sublist (childChildren_sub_treeNames c)
    have cdisj : ∀ x ∈ treeNamesL c.children, getAssoc params x = none :=
      fun x hx => hdisj x (child_names_mem hcn ((childChildren_sub_treeNames c).subset hx))
    simp only [tryStaticL]
    by_cases hcond : (isStaticChild c && c.pattern == seg) = true
    · rw [if_pos hcond]
      simp only [Bool.and_eq_true, beq_iff_eq] at hcond
      cases hrec : matchRouteF m fuel c tail params with
      | mk r q =>
        cases r with
        | some h2 =>
          constructor
          · intro p hm
            dsimp only at hm
            simp at hm
          · intro h p hm
            dsimp only at hm
            simp only [Prod.mk.injEq, Option.some.injEq] at hm
            obtain ⟨bs, hb, hq⟩ := (IHfuel c params cnodup cdisj).2 h2 q hrec
            exact ⟨bs, Matches.staticChild c hcn hcond.1 hcond.2 (hm.1 ▸ hb), hm.2 ▸ hq⟩
        | none =>
          have hrestored : q = params := (IHfuel c params cnodup cdisj).1 q hrec
          dsimp only
          rw [hrestored]
          exact ih hsub' seg params hdisj
    · rw [if_neg hcond]
      exact ih hsub' seg params hdisj

theorem tryWildL_exact (m : String) (fuel : Nat) (tail : List String) (n : RadixNode)
    (IHfuel : ∀ (c : RadixNode) (params' : Params),
      (treeNamesL c.children).Nodup →
      (∀ x ∈ treeNamesL c.children, getAssoc params' x = none) →
      (∀ p, matchRouteF m fuel c tail params' = (none, p) → p = params') ∧
      (∀ h p, matchRouteF m fuel c tail params' = (some h, p) →
        ∃ bs, Matches c tail m h bs ∧ p = params' ++ bs))
    (hnodup : (treeNamesL n.children).Nodup) :
    ∀ (cs : List RadixNode), (∀ c ∈ cs, c ∈ n.children) →
      ∀ (seg : String) (params : Params),
        (∀ x ∈ treeNamesL n.children, getAssoc params x = none) →
        (∀ p, tryWildL (fun c q => matchRouteF m fuel c tail q) cs params = (none, p) →
          p = params) ∧
        (∀ h p, tryWildL (fun c q => matchRouteF m fuel c tail q) cs params = (some h, p) →
          ∃ bs, Matches n (seg :: tail) m h bs ∧ p = params ++ bs) := by
  intro cs
  induction cs with
  | nil =>
    intro _ seg params _
    constructor
    · intro p hm
      simp only [tryWildL, Prod.mk.injEq] at hm
      exact hm.2.symm
    · intro h p hm
      simp only [tryWildL, Prod.mk.injEq] at hm
      exact absurd hm.1 (by simp)
  | cons c rest ih =>
    intro hsub seg params hdisj
    have hcn : c ∈ n.children := hsub c (List.mem_cons_self _ _)
    have hsub' : ∀ d ∈ rest, d ∈ n.children := fun d hd => hsub d (List.mem_cons_of_mem _ hd)
    have cnodup : (treeNamesL c.children).Nodup :=
      (child_names_nodup hcn hnodup).sublist (childChildren_sub_treeNames c)
    have cdisj : ∀ x ∈ treeNamesL c.children, getAssoc params x = none :=
      fun x hx => hdisj x (child_names_mem hcn ((childChildren_sub_treeNames c).subset hx))
    simp only [tryWildL]
    by_cases hw : c.isWildcard = true
    · rw [if_pos hw]
      cases hrec : matchRouteF m fuel c tail params with
      | mk r q =>
        cases r with
        | some h2 =>
          constructor
          · intro p hm
            dsimp only at hm
            simp at hm
          · intro h p hm
            dsimp only at hm
            simp only [Prod.mk.injEq, Option.some.injEq] at hm
            obtain ⟨bs, hb, hq⟩ := (IHfuel c params cnodup cdisj).2 h2 q hrec
            exact ⟨bs, Matches.wildChild c hcn hw (hm.1 ▸ hb), hm.2 ▸ hq⟩
        | none =>
          have hrestored : q = params := (IHfuel c params cnodup cdisj).1 q hrec
          dsimp only
          rw [hrestored]
          exact ih hsub' seg params hdisj
    · rw [if_neg hw]
      exact ih hsub' seg params hdisj

theorem tryParamL_exact (m : String) (fuel : Nat) (tail : List String) (n : RadixNode)
    (IHfuel : ∀ (c : RadixNode) (params' : Params),
      (treeNamesL c.children).Nodup →
      (∀ x ∈ treeNamesL c.children, getAssoc params' x = none) →
      (∀ p, matchRouteF m fuel c tail params' = (none, p) → p = params') ∧
      (∀ h p, matchRouteF m fuel c tail params' = (some h, p) →
        ∃ bs, Matches c tail m h bs ∧ p = params' ++ bs))
    (hnodup : (treeNamesL n.children).Nodup) :
    ∀ (cs : List RadixNode), (∀ c ∈ cs, c ∈ n.children) →
      ∀ (seg : String) (params : Params),
        (∀ x ∈ treeNamesL n.children, getAssoc params x = none) →
        (∀ p, tryParamL (fun c q => matchRouteF m fuel c tail q) cs seg params = (none, p) →
          p = params) ∧
        (∀ h p, tryParamL (fun c q => matchRouteF m fuel c tail q) cs seg params = (some h, p) →
          ∃ bs, Matches n (seg :: tail) m h bs ∧ p = params ++ bs) := by
  intro cs
  induction cs with
  | nil =>
    intro _ seg params _
    constructor
    · intro p hm
      simp only [tryParamL, Prod.mk.injEq] at hm
      exact hm.2.symm
    · intro h p hm
      simp only [tryParamL, Prod.mk.injEq] at hm
      exact absurd hm.1 (by simp)
  | cons c rest ih =>
    intro hsub seg params hdisj
    have hcn : c ∈ n.children := hsub c (List.mem_cons_self _ _)
    have hsub' : ∀ d ∈ rest, d ∈ n.children := fun d hd => hsub d (List.mem_cons_of_mem _ hd)
    simp only [tryParamL]
    cases hap : activeParam c with
    | none =>
      dsimp only
      exact ih hsub' seg params hdisj
    | some nm =>
      dsimp only
      have hnames : treeNames c = nm :: treeNamesL c.children := treeNames_of_activeParam hap
      have hnmmem : nm ∈ treeNamesL n.children :=
        child_names_mem hcn (by rw [hnames]; exact List.mem_cons_self _ _)
      have habs : getAssoc params nm = none := hdisj nm hnmmem
      have hset : setAssoc params nm seg = params ++ [(nm, seg)] := setAssoc_absent _ _ _ habs
      have cnodup_full : (treeNames c).Nodup := child_names_nodup hcn hnodup
      have hnm_not : nm ∉ treeNamesL c.children := by
        rw [hnames] at cnodup_full
        exact (List.nodup_cons.mp cnodup_full).1
      have cnodup : (treeNamesL c.children).Nodup := by
        rw [hnames] at cnodup_full
        exact (List.nodup_cons.mp cnodup_full).2
      have cdisj : ∀ x ∈ treeNamesL c.children, getAssoc (setAssoc params nm seg) x = none := by
        intro x hx
        rw [getAssoc_setAssoc]
        have hxne : x ≠ nm := fun hxe => hnm_not (hxe ▸ hx)
        rw [if_neg hxne]
        exact hdisj x (child_names_mem hcn (by rw [hnames]; exact List.mem_cons_of_mem _ hx))
      cases hrec : matchRouteF m fuel c tail (setAssoc params nm seg) with
      | mk r q =>
        cases r with
        | some h2 =>
          constructor
          · intro p hm
            dsimp only at hm
            simp at hm
          · intro h p hm
            dsimp only at hm
            simp only [Prod.mk.injEq, Option.some.injEq] at hm
            obtain ⟨bs, hb, hq⟩ := (IHfuel c _ cnodup cdisj).2 h2 q hrec
            refine ⟨(nm, seg) :: bs, Matches.paramChild c hcn hap (hm.1 ▸ hb), ?_⟩
            rw [← hm.2, hq, hset]
            simp
        | none =>
          have hrestored : q = setAssoc params nm seg := (IHfuel c _ cnodup cdisj).1 q hrec
          dsimp only
          rw [hrestored, delAssoc_setAssoc_absent _ _ _ habs, delAssoc_of_absent _ _ habs]
          exact ih hsub' seg params hdisj

/-- Restoration and exactness of the radix walk under globally distinct param names:
a failing walk leaves the shared `params` object exactly as it found it (every
binding made in a failed branch is deleted on backtracking), and a successful walk
appends exactly the bindings of the matched pattern. -/
theorem matchRouteF_exact (m : String) :
    ∀ (fuel : Nat) (n : RadixNode) (rest : List String) (params : Params),
      (treeNamesL n.children).Nodup →
      (∀ x ∈ treeNamesL n.children, getAssoc params x = none) →
      (∀ p, matchRouteF m fuel n rest params = (none, p) → p = params) ∧
      (∀ h p, matchRouteF m fuel n rest params = (some h, p) →
        ∃ bs, Matches n rest m h bs ∧ p = params ++ bs) := by
  intro fuel
  induction fuel with
  | zero =>
    intro n rest params _ _
    constructor
    · intro p hm
      simp only [matchRouteF, Prod.mk.injEq] at hm
      exact hm.2.symm
    · intro h p hm
      simp only [matchRouteF, Prod.mk.injEq] at hm
      exact absurd hm.1 (by simp)
  | succ f ihf =>
    intro n rest params hnodup hdisj
    cases rest with
    | nil =>
      constructor
      · intro p hm
        simp only [matchRouteF, Prod.mk.injEq] at hm
        exact hm.2.symm
      · intro h p hm
        simp only [matchRouteF, Prod.mk.injEq] at hm
        refine ⟨[], Matches.done ?_, by rw [← hm.2]; simp⟩
        exact hm.1
    | cons seg tail =>
      have IHfuel : ∀ (c : RadixNode) (params' : Params),
          (treeNamesL c.children).Nodup →
          (∀ x ∈ treeNamesL c.children, getAssoc params' x = none) →
          (∀ p, matchRouteF m f c tail params' = (none, p) → p = params') ∧
          (∀ h p, matchRouteF m f c tail params' = (some h, p) →
            ∃ bs, Matches c tail m h bs ∧ p = params' ++ bs) :=
        fun c params' hn hd => ihf c tail params' hn hd
      simp only [matchRouteF]
      cases hs : tryStaticL (fun c q => matchRouteF m f c tail q) n.children seg params with
      | mk r1 p1 =>
        cases r1 with
        | some h1 =>
          constructor
          · intro p hm
            dsimp only at hm
            simp at hm
          · intro h p hm
            dsimp only at hm
            simp only [Prod.mk.injEq, Option.some.injEq] at hm
            obtain ⟨bs, hb, hq⟩ :=
              (tryStaticL_exact m f tail n IHfuel hnodup n.children (fun c hc => hc)
                seg params hdisj).2 h1 p1 hs
            exact ⟨bs, hm.1 ▸ hb, hm.2 ▸ hq⟩
        | none =>
          have hp1 : p1 = params :=
            (tryStaticL_exact m f tail n IHfuel hnodup n.children (fun c hc => hc)
              seg params hdisj).1 p1 hs
          subst hp1
          dsimp only
          cases hp : tryParamL (fun c q => matchRouteF m f c tail q) n.children seg p1 with
          | mk r2 p2 =>
            cases r2 with
            | some h2 =>
              constructor
              · intro p hm
                dsimp only at hm
                simp at hm
              · intro h p hm
                dsimp only at hm
                simp only [Prod.mk.injEq, Option.some.injEq] at hm
                obtain ⟨bs, hb, hq⟩ :=
                  (tryParamL_exact m f tail n IHfuel hnodup n.children (fun c hc => hc)
                    seg p1 hdisj).2 h2 p2 hp
                exact ⟨bs, hm.1 ▸ hb, hm.2 ▸ hq⟩
            | none =>
              have hp2 : p2 = p1 :=
                (tryParamL_exact m f tail n IHfuel hnodup n.children (fun c hc => hc)
                  seg p1 hdisj).1 p2 hp
              subst hp2
              dsimp only
              cases hw : tryWildL (fun c q => matchRouteF m f c tail q) n.children p2 with
              | mk r3 p3 =>
                cases r3 with
                | some h3 =>
                  constructor
                  · intro p hm
                    dsimp only at hm
                    simp at hm
                  · intro h p hm
                    dsimp only at hm
                    simp only [Prod.mk.injEq, Option.some.injEq] at hm
                    obtain ⟨bs, hb, hq⟩ :=
                      (tryWildL_exact m f tail n IHfuel hnodup n.children (fun c hc => hc)
                        seg p2 hdisj).2 h3 p3 hw
                    exact ⟨bs, hm.1 ▸ hb, hm.2 ▸ hq⟩
                | none =>
                  have hp3 : p3 = p2 :=
                    (tryWildL_exact m f tail n IHfuel hnodup n.children (fun c hc => hc)
                      seg p2 hdisj).1 p3 hw
                  subst hp3
                  dsimp only
                  constructor
                  · intro p hm
                    exact (tryCatchL_exact m n.children p3).1 p hm
                  · intro h p hm
                    obtain ⟨c, hc, h1, h2⟩ := tryCatchL_sound m n.children p3 h p hm
                    refine ⟨[], Matches.catchAllChild c hc h1 h2, ?_⟩
                    rw [(tryCatchL_exact m n.children p3).2 h p hm]
                    simp

/-- C10 amended: whenever the tree matcher returns a Matched result, the params
mapping contains bindings for exactly the named Param segments along the successfully
matched pattern and nothing else — a binding made in a failed branch is deleted before
backtracking — provided no param name is reused across the registered route patterns.
(Without that proviso the claim fails: the backtracking `delete` erases an outer
binding of the same name, as the counterexample shows.)  The returned params equal
precisely the binding list of a `Matches` derivation for the matched pattern. -/
theorem c10_params_exact_amended (regs : List (String × String × Nat))
    (m pathname : String) (h : Nat) (ps : Params)
    (hnodup : (regsParamNames regs).Nodup)
    (hmr : matchRoute (buildRouter (registerAll regs)) (pathParts pathname) m []
      = (some h, ps)) :
    ∃ bs, Matches (buildRouter (registerAll regs)) (pathParts pathname) m h bs ∧ ps = bs := by
  have htree : (treeNames (buildRouter (registerAll regs))).Nodup :=
    buildRouter_names_nodup regs hnodup
  have hchildnodup : (treeNamesL (buildRouter (registerAll regs)).children).Nodup :=
    htree.sublist (childChildren_sub_treeNames _)
  have hdisj : ∀ x ∈ treeNamesL (buildRouter (registerAll regs)).children,
      getAssoc ([] : Params) x = none := fun x _ => rfl
  unfold matchRoute at hmr
  obtain ⟨bs, hb, hq⟩ := (matchRouteF_exact m _ _ _ _ hchildnodup hdisj).2 h ps hmr
  exact ⟨bs, hb, by simpa using hq⟩

/-- C10 amended witness: routes `GET /u/:id` and `GET /v/:name` (distinct param
names); the request `GET /u/alice` matches with params exactly `[("id","alice")]`,
which the theorem certifies as the binding list of the matched pattern. -/
theorem c10_params_exact_amended_witness :
    ∃ bs, Matches (buildRouter (registerAll [("GET", "/u/:id", 3), ("GET", "/v/:name", 4)]))
        (pathParts "/u/alice") "GET" 3 bs ∧ ([("id", "alice")] : Params) = bs :=
  c10_params_exact_amended [("GET", "/u/:id", 3), ("GET", "/v/:name", 4)]
    "GET" "/u/alice" 3 [("id", "alice")] (by decide) (by decide)
